import Mathlib

/-!
# Verification of the tix content-addressed build engine core

A shallow embedding of the core of the `tix` repository (a TypeScript
reimagining of the Nix derivation model) together with proofs about it.

Modelling conventions:

* JavaScript strings are modelled by Lean `String` (sequences of Unicode
  scalar values).  Where UTF-16 code-unit level behaviour matters (the
  default `Array.prototype.sort()` comparator used by `stableStringify`)
  we convert explicitly with `utf16Units`; where UTF-8 byte level
  behaviour matters (`sha256` hashing of strings, the spec's key-order
  requirement) we convert with `utf8Bytes`.
* Byte buffers are modelled by `List Nat`, each element a byte.
* The SHA-256 primitive comes from `node:crypto`, outside this
  repository; every definition that needs it is parametrised by a
  function `sha : List Nat → List Nat` standing for the SHA-256 of a
  byte string.  All theorems hold for every choice of `sha`, in
  particular for the real SHA-256.
* The file system / store is modelled as an association list from
  absolute path strings to entries; store operations are state-passing
  translations of `src/core/store.ts`.
-/

namespace Tix

/-! ## UTF-16 / UTF-8 encodings of strings (platform behaviour) -/

/-- UTF-16 code units of a single Unicode scalar value (a JS string is a
sequence of UTF-16 code units; Lean `Char`s are scalar values, encoded as
one unit below `0x10000` and as a surrogate pair otherwise). -/
def charUtf16 (c : Char) : List Nat :=
  if c.toNat < 0x10000 then [c.toNat]
  else [0xd800 + (c.toNat - 0x10000) / 0x400, 0xdc00 + (c.toNat - 0x10000) % 0x400]

/-- The UTF-16 code-unit sequence of a string. -/
def utf16Units (s : String) : List Nat := s.data.flatMap charUtf16

/-- UTF-8 bytes of a single Unicode scalar value. -/
def charUtf8 (c : Char) : List Nat :=
  let n := c.toNat
  if n < 0x80 then [n]
  else if n < 0x800 then [0xc0 + n / 0x40, 0x80 + n % 0x40]
  else if n < 0x10000 then [0xe0 + n / 0x1000, 0x80 + n / 0x40 % 0x40, 0x80 + n % 0x40]
  else [0xf0 + n / 0x40000, 0x80 + n / 0x1000 % 0x40, 0x80 + n / 0x40 % 0x40, 0x80 + n % 0x40]

/-- The UTF-8 byte sequence of a string. -/
def utf8Bytes (s : String) : List Nat := s.data.flatMap charUtf8

/-- Lexicographic order on sequences of naturals (the comparison JS uses
on strings, seen as their code-unit sequences). -/
def unitsLe : List Nat → List Nat → Bool
  | [], _ => true
  | _ :: _, [] => false
  | a :: as, b :: bs => if a < b then true else if b < a then false else unitsLe as bs

/-- JS default string comparison (`Array.prototype.sort` without a
comparator): lexicographic on UTF-16 code units. -/
def jsStrLe (a b : String) : Bool := unitsLe (utf16Units a) (utf16Units b)

/-- Lexicographic comparison of strings by their UTF-8 byte sequences
(the order the spec prescribes for mapping keys). -/
def utf8StrLe (a b : String) : Bool := unitsLe (utf8Bytes a) (utf8Bytes b)

/-! ## Deterministic JSON values and `stableStringify` (src/core/hash.ts) -/

/-- JSON-shaped values as produced by the TypeScript core.  `undef`
models JavaScript `undefined` (omitted from objects, `null` in arrays
under `JSON.stringify`). -/
inductive JVal where
  | undef
  | null
  | bool (b : Bool)
  | num (n : Int)
  | str (s : String)
  | arr (elems : List JVal)
  | obj (fields : List (String × JVal))

/-- Is this value JavaScript `undefined`? -/
def JVal.isUndef : JVal → Bool
  | .undef => true
  | _ => false

/-- JavaScript property assignment `o[k] = v` on an (insertion-ordered)
object: overwrite in place if the key exists, else append. -/
def objSet {β : Type} (o : List (String × β)) (k : String) (v : β) : List (String × β) :=
  if o.any (fun p => p.1 = k) then o.map (fun p => if p.1 = k then (k, v) else p)
  else o ++ [(k, v)]

/-- ASCII decimal digit. -/
def isDigit10 (c : Char) : Bool := decide ('0' ≤ c) && decide (c ≤ '9')

/-- The value of a canonical base-10 numeral string (digits only, no
leading zero except for `"0"` itself), `none` otherwise. -/
def canonicalNum (s : String) : Option Nat :=
  match s.data with
  | [] => none
  | c :: cs =>
      if (c :: cs).all isDigit10 then
        if c = '0' then (if cs.isEmpty then some 0 else none)
        else some ((c :: cs).foldl (fun a d => a * 10 + (d.toNat - 48)) 0)
      else none

/-- ECMAScript *array index* property keys: canonical numerals whose
value is below `2^32 - 1`.  `[[OwnPropertyKeys]]` of an ordinary object
lists these keys first, in ascending numeric order, regardless of
insertion order; the remaining string keys follow in insertion order. -/
def arrayIndexVal (s : String) : Option Nat :=
  match canonicalNum s with
  | some n => if n < 4294967295 then some n else none
  | none => none

/-- Ascending numeric order on the array-index values of two fields'
keys (the comparator realising the numeric part of the own-property
enumeration order). -/
def numIdxLe (a b : String × JVal) : Bool :=
  decide ((arrayIndexVal a.1).getD 0 ≤ (arrayIndexVal b.1).getD 0)

/-- Own-property enumeration order of a JS object whose properties were
created in the order of the list: array-index keys first in ascending
numeric order, then the remaining keys in creation order.
`JSON.stringify` serializes the object returned by the replacer by
enumerating its own properties in exactly this order. -/
def enumOrder (o : List (String × JVal)) : List (String × JVal) :=
  (o.filter (fun p => (arrayIndexVal p.1).isSome)).mergeSort numIdxLe
    ++ o.filter (fun p => (arrayIndexVal p.1).isNone)

/-- The resulting total key order in which `stableStringify` emits the
fields of every object: array-index keys (ascending numerically) before
all other keys (ascending in UTF-16 code-unit order, the order the
replacer's `.sort()` established as creation order). -/
def enumKeyLe (a b : String) : Bool :=
  match arrayIndexVal a, arrayIndexVal b with
  | some m, some n => decide (m ≤ n)
  | some _, none => true
  | none, some _ => false
  | none, none => jsStrLe a b

mutual

/-- One level of `stableStringify`: the replacer rebuilds every object
with its keys inserted in the JS default sort order (UTF-16 code-unit
lexicographic), and `JSON.stringify` then serializes the returned object
in its own-property enumeration order — array-index-like keys first, in
ascending numeric order (`enumOrder`).  The field order of `sortKeysV`'s
result is therefore exactly the order in which the keys are emitted. -/
def sortKeysV : JVal → JVal
  | .obj fields =>
      .obj (enumOrder ((sortKeysFields fields).mergeSort (fun a b => jsStrLe a.1 b.1)))
  | .arr elems => .arr (sortKeysElems elems)
  | v => v

/-- `sortKeysV` mapped over an object's fields. -/
def sortKeysFields : List (String × JVal) → List (String × JVal)
  | [] => []
  | (k, v) :: rest => (k, sortKeysV v) :: sortKeysFields rest

/-- `sortKeysV` mapped over an array's elements. -/
def sortKeysElems : List JVal → List JVal
  | [] => []
  | v :: rest => sortKeysV v :: sortKeysElems rest

end

/-- JSON string escaping as performed by `JSON.stringify`: quote,
backslash and control characters are escaped, everything else is emitted
verbatim. -/
def jEscapeChar (c : Char) : List Char :=
  if c = '"' then ['\\', '"']
  else if c = '\\' then ['\\', '\\']
  else if c = Char.ofNat 0x08 then ['\\', 'b']
  else if c = Char.ofNat 0x09 then ['\\', 't']
  else if c = Char.ofNat 0x0a then ['\\', 'n']
  else if c = Char.ofNat 0x0c then ['\\', 'f']
  else if c = Char.ofNat 0x0d then ['\\', 'r']
  else if c.toNat < 0x20 then
    ['\\', 'u', '0', '0',
     (if c.toNat / 16 < 10 then Char.ofNat (48 + c.toNat / 16) else Char.ofNat (87 + c.toNat / 16)),
     (if c.toNat % 16 < 10 then Char.ofNat (48 + c.toNat % 16) else Char.ofNat (87 + c.toNat % 16))]
  else [c]

/-- Emit a JSON string literal. -/
def jQuote (s : String) : String :=
  "\"" ++ String.mk (s.data.flatMap jEscapeChar) ++ "\""

lemma sizeOf_filter_le {α : Type} [SizeOf α] (p : α → Bool) :
    ∀ l : List α, sizeOf (l.filter p) ≤ sizeOf l
  | [] => le_refl _
  | a :: l => by
    simp only [List.filter]
    split
    · simp only [List.cons.sizeOf_spec]
      have := sizeOf_filter_le p l
      omega
    · simp only [List.cons.sizeOf_spec]
      have := sizeOf_filter_le p l
      omega

mutual

/-- Serialize a `JVal` in `JSON.stringify`'s compact form (no
whitespace): arrays keep element order, `undef`-valued fields are
omitted from objects and become `null` inside arrays.  An object's
fields are emitted in the order of the field list; the enumeration-order
computation that `JSON.stringify` performs on each object (`enumOrder`:
array-index keys first, ascending numerically) has already been applied
by `sortKeysV`, whose output `jEmit` serializes in `stableStringify`. -/
def jEmit : JVal → String
  | .undef => "null"
  | .null => "null"
  | .bool b => if b then "true" else "false"
  | .num n => toString n
  | .str s => jQuote s
  | .arr elems => "[" ++ String.intercalate "," (jEmitElems elems) ++ "]"
  | .obj fields =>
      "\x7b" ++ String.intercalate ","
        (jEmitFields (fields.filter (fun p => !p.2.isUndef))) ++ "\x7d"
termination_by v => sizeOf v
decreasing_by
  · simp only [JVal.arr.sizeOf_spec]
    omega
  · have := sizeOf_filter_le (fun p => !p.2.isUndef) fields
    simp only [JVal.obj.sizeOf_spec]
    omega

/-- The `"key":value` fragments of an object. -/
def jEmitFields : List (String × JVal) → List String
  | [] => []
  | (k, v) :: rest => (jQuote k ++ ":" ++ jEmit v) :: jEmitFields rest
termination_by l => sizeOf l
decreasing_by
  · simp only [List.cons.sizeOf_spec, Prod.mk.sizeOf_spec]
    omega
  · simp only [List.cons.sizeOf_spec]
    omega

/-- The serialized elements of an array. -/
def jEmitElems : List JVal → List String
  | [] => []
  | v :: rest => jEmit v :: jEmitElems rest
termination_by l => sizeOf l
decreasing_by
  · simp only [List.cons.sizeOf_spec]
    omega
  · simp only [List.cons.sizeOf_spec]
    omega

end

/-- `stableStringify` from src/core/hash.ts: `JSON.stringify` with a
replacer that rebuilds every object with its keys sorted.  `sortKeysV`
models the replacer together with `JSON.stringify`'s own-property
enumeration order of the rebuilt objects; `jEmit` then emits the fields
in that order. -/
def stableStringify (v : JVal) : String := jEmit (sortKeysV v)

/-! ## Hash primitives (src/core/hash.ts) -/

/-- Lowercase hex digit for a value below 16. -/
def hexDigit (n : Nat) : Char :=
  if n < 10 then Char.ofNat (48 + n) else Char.ofNat (87 + n)

/-- `Buffer.toString("hex")`: two lowercase hex digits per byte. -/
def hexEncode (bytes : List Nat) : String :=
  String.mk (bytes.flatMap (fun b => [hexDigit (b / 16 % 16), hexDigit (b % 16)]))

/-- Nix's custom base32 alphabet (omits e, o, u, t). -/
def NIX32_ALPHABET : String := "0123456789abcdfghijklmnpqrsvwxyz"

/-- The 5-bit group value for output group `n` of `nix32Encode` over the
reversed byte buffer, exactly as computed in src/core/hash.ts lines
40-49. -/
def nix32Coef (reversed : List Nat) (n : Nat) : Nat :=
  let b := n * 5
  let i := b / 8
  let j := b % 8
  let c := (reversed.getD i 0 >>> j) &&& 0x1f
  if i + 1 < reversed.length ∧ j > 3 then
    c ||| ((reversed.getD (i + 1) 0 <<< (8 - j)) &&& 0x1f)
  else c

/-- `nix32Encode` from src/core/hash.ts: reverse the bytes, extract 5-bit
groups LSB-first, and write group `n` at output position `len - 1 - n`
(so the characters are generated back-to-front; we generate them in
group order and reverse). -/
def nix32Encode (bytes : List Nat) : String :=
  if bytes.length = 0 then "" else
  let reversed := bytes.reverse
  let len := (reversed.length * 8 + 4) / 5
  String.mk (((List.range len).map
    (fun n => NIX32_ALPHABET.data.getD (nix32Coef reversed n) ' ')).reverse)

/-- `sha256Hex`: hex form of the SHA-256 of a byte string.  `sha` is the
abstract SHA-256 primitive (from `node:crypto`). -/
def sha256Hex (sha : List Nat → List Nat) (bytes : List Nat) : String :=
  hexEncode (sha bytes)

/-- `sha256Hex` applied to a string (node hashes its UTF-8 bytes). -/
def sha256HexStr (sha : List Nat → List Nat) (s : String) : String :=
  sha256Hex sha (utf8Bytes s)

/-- `sha256Truncated`: SHA-256, truncated to 20 bytes, Nix32-encoded. -/
def sha256Truncated (sha : List Nat → List Nat) (s : String) : String :=
  nix32Encode ((sha (utf8Bytes s)).take 20)

/-- `computeStorePath` from src/core/hash.ts:
fingerprint = `type ":sha256:" innerDigest ":" storeDir ":" name`,
result = `storeDir "/" nix32(sha256(fingerprint)[0:20]) "-" name`. -/
def computeStorePath (sha : List Nat → List Nat)
    (ty : String) (innerDigest : String) (storeDir : String) (name : String) : String :=
  let fingerprint := ty ++ ":sha256:" ++ innerDigest ++ ":" ++ storeDir ++ ":" ++ name
  let digest := sha256Truncated sha fingerprint
  storeDir ++ "/" ++ digest ++ "-" ++ name

/-- `computeOutputPath`: store path of type `"output:out"`. -/
def computeOutputPath (sha : List Nat → List Nat)
    (drvHashHex : String) (storeDir : String) (name : String) : String :=
  computeStorePath sha "output:out" drvHashHex storeDir name

/-- `computeSourcePath`: store path of type `"source"`. -/
def computeSourcePath (sha : List Nat → List Nat)
    (contentHash : String) (storeDir : String) (name : String) : String :=
  computeStorePath sha "source" contentHash storeDir name

/-- `computeFixedOutputPath` from src/core/hash.ts: inner fingerprint
`"fixed:out:" (mode == recursive ? "r:" : "") "sha256:" hash ":"`. -/
def computeFixedOutputPath (sha : List Nat → List Nat)
    (contentHash : String) (hashMode : String) (storeDir : String) (name : String) : String :=
  let modePrefix := if hashMode = "recursive" then "r:" else ""
  let innerFingerprint := "fixed:out:" ++ modePrefix ++ "sha256:" ++ contentHash ++ ":"
  let innerDigest := sha256HexStr sha innerFingerprint
  computeStorePath sha "output:out" innerDigest storeDir name

/-! ## Data model (src/core/types.ts) -/

/-- `Source`: a local filesystem path, or a declared content fingerprint
(`hashAlgo` is the literal type `"sha256"` and is omitted here). -/
inductive Source where
  | path (p : String)
  | fixed (url : String) (hash : String)
deriving Repr, DecidableEq

/-- The user-facing `Derivation` record.  Optional fields are `Option`s,
mirroring the TypeScript interface.  `inputs` references other
derivations structurally; the JS heap's object identity is not modelled
(the memo caches keyed on identity only avoid recomputation for the
acyclic object graphs considered here). -/
inductive Derivation where
  | mk (name : String) (system : Option String) (builder : String)
      (args : Option (List String)) (env : Option (List (String × String)))
      (inputs : Option (List Derivation)) (src : Option Source)
      (outputHash : Option String) (outputHashAlgo : Option String)
      (outputHashMode : Option String)

def Derivation.name : Derivation → String
  | .mk n _ _ _ _ _ _ _ _ _ => n

def Derivation.system : Derivation → Option String
  | .mk _ s _ _ _ _ _ _ _ _ => s

def Derivation.builder : Derivation → String
  | .mk _ _ b _ _ _ _ _ _ _ => b

def Derivation.args : Derivation → Option (List String)
  | .mk _ _ _ a _ _ _ _ _ _ => a

def Derivation.env : Derivation → Option (List (String × String))
  | .mk _ _ _ _ e _ _ _ _ _ => e

def Derivation.inputs : Derivation → Option (List Derivation)
  | .mk _ _ _ _ _ i _ _ _ _ => i

def Derivation.src : Derivation → Option Source
  | .mk _ _ _ _ _ _ s _ _ _ => s

def Derivation.outputHash : Derivation → Option String
  | .mk _ _ _ _ _ _ _ h _ _ => h

def Derivation.outputHashAlgo : Derivation → Option String
  | .mk _ _ _ _ _ _ _ _ a _ => a

def Derivation.outputHashMode : Derivation → Option String
  | .mk _ _ _ _ _ _ _ _ _ m => m

/-- JavaScript truthiness of an optional string: `undefined` and `""`
are falsy (`if (drv.outputHash)` in src/core/derivation.ts). -/
def truthy : Option String → Bool
  | none => false
  | some s => s ≠ ""

/-! ## `hashDerivationModulo` (src/core/derivation.ts lines 35-79) -/

/-- The `src` field of the hashable record:
`drv.src?.type === "path" ? drv.src.path : drv.src?.hash`
(`undefined` when there is no source). -/
def srcHashField : Option Source → JVal
  | some (.path p) => .str p
  | some (.fixed _ h) => .str h
  | none => .undef

mutual

/-- `hashDerivationModulo` without its memo cache (the cache, keyed on
object identity, only avoids recomputing the same pure result).
`sha` is the SHA-256 primitive, `sys0` the host's `currentSystem()`. -/
def hashDerivationModulo (sha : List Nat → List Nat) (sys0 : String) :
    Derivation → String
  | .mk name system builder args env inputs src outputHash _oha ohm =>
    if truthy outputHash then
      -- fixed-output: hash is based on the OUTPUT, not inputs
      let mode := ohm.getD "flat"
      sha256HexStr sha
        ("fixed:out:" ++ (if mode = "recursive" then "r:" else "") ++ "sha256:"
          ++ outputHash.getD "" ++ ":")
    else
      let inputHashes := hashInputs sha sys0 (inputs.getD []) []
      let toHash : JVal := .obj
        [("name", .str name),
         ("system", .str (system.getD sys0)),
         ("builder", .str builder),
         ("args", .arr ((args.getD []).map .str)),
         ("env", .obj ((env.getD []).map (fun p => (p.1, .str p.2)))),
         ("inputs", .obj inputHashes),
         ("outputs", .obj [("out", .str "")]),
         ("src", srcHashField src)]
      sha256HexStr sha (stableStringify toHash)
termination_by d => sizeOf d
decreasing_by
  simp only [Derivation.mk.sizeOf_spec]
  rename Option (List Derivation) => inp
  cases inp with
  | none => simp [Option.getD]; omega
  | some l => simp only [Option.getD, Option.some.sizeOf_spec]; omega

/-- The loop `for (const input of drv.inputs ?? []) inputHashes[inputHash]
= ["out"]` building the `inputHashes` object. -/
def hashInputs (sha : List Nat → List Nat) (sys0 : String) :
    List Derivation → List (String × JVal) → List (String × JVal)
  | [], acc => acc
  | d :: ds, acc =>
      hashInputs sha sys0 ds
        (objSet acc (hashDerivationModulo sha sys0 d) (.arr [.str "out"]))
termination_by l _ => sizeOf l
decreasing_by
  · simp only [List.cons.sizeOf_spec]; omega
  · simp only [List.cons.sizeOf_spec]; omega

end


/-! ## The store (src/core/store.ts) -/

/-- The resolved, stored derivation file (`DrvFile` in src/core/types.ts).
`out` is `outputs.out.path` (the single-output mapping flattened). -/
structure DrvFile where
  out : String
  inputDrvs : List (String × List String)
  inputSrcs : List String
  system : String
  builder : String
  args : List String
  env : List (String × String)
deriving DecidableEq

/-- A file-system entry: a plain file (bytes), a stored derivation file
(kept structured; the store serializes it as JSON and `readDrv` parses it
back), or a directory tree of named files produced by a build. -/
inductive Entry where
  | file (content : List Nat)
  | drvE (df : DrvFile)
  | dir (files : List (String × List Nat))
deriving DecidableEq

/-- The file system (covering the store directory and temporary build
directories): a map from absolute paths to entries. -/
def FS : Type := String → Option Entry

/-- `existsSync` / `Store.has`. -/
def fsHas (sig : FS) (p : String) : Bool := (sig p).isSome

/-- Write (or overwrite) an entry. -/
def fsSet (sig : FS) (p : String) (e : Entry) : FS :=
  fun q => if q = p then some e else sig q

/-- `rmSync` (recursive, force). -/
def fsErase (sig : FS) (p : String) : FS :=
  fun q => if q = p then none else sig q

/-- `String.prototype.startsWith` (expressed on the character lists so
that it evaluates inside the kernel). -/
def strStartsWith (s pre : String) : Bool := pre.data.isPrefixOf s.data

/-- `node:path` `basename`: the part after the last slash (expressed on
the character lists so that it evaluates inside the kernel). -/
def basename (p : String) : String :=
  String.mk ((p.data.reverse.takeWhile (fun c => c ≠ '/')).reverse)

/-- `Store.addSource`: hash the local file's bytes, compute the source
store path, and write the bytes there unless already present; returns
the path.  `fs0` models `readFileSync`; the temp-file-then-rename of
`atomicWrite` nets to a single insertion.  Default name is the local
basename. -/
def addSource (sha : List Nat → List Nat) (fs0 : String → List Nat) (dir : String)
    (sig : FS) (localPath : String) (nameArg : Option String) : String × FS :=
  let content := fs0 localPath
  let contentHash := sha256Hex sha content
  let finalName := nameArg.getD (basename localPath)
  let storePath := computeSourcePath sha contentHash dir finalName
  if fsHas sig storePath then (storePath, sig)
  else (storePath, fsSet sig storePath (.file content))

/-- `Store.addWithPath`: write raw content at a pre-computed path unless
already present. -/
def addWithPath (sig : FS) (storePath : String) (content : List Nat) : FS :=
  if fsHas sig storePath then sig else fsSet sig storePath (.file content)

/-- `Store.addDrv`: install a derivation file at `drvPath` unless already
present (the source stores `JSON.stringify(drv, null, 2)`; we keep the
parsed form). -/
def addDrv (sig : FS) (drvPath : String) (df : DrvFile) : FS :=
  if fsHas sig drvPath then sig else fsSet sig drvPath (.drvE df)

/-- `Store.registerOutput`: if the final path already exists, just remove
the temporary directory; otherwise make it immutable (permissions, not
modelled) and rename it onto the final path. -/
def registerOutput (sig : FS) (tempPath storePath : String) : FS :=
  if fsHas sig storePath then fsErase sig tempPath
  else match sig tempPath with
    | some e => fsSet (fsErase sig tempPath) storePath e
    | none => sig

/-! ## Validation and instantiation (src/core/derivation.ts lines 90-191) -/

/-- The error thrown by `validateDerivation`. -/
inductive ValidationError where
  | validationError
deriving DecidableEq

/-- Modelled from the spec: `validateDerivation` is exported from
`src/core/types.ts` and called first by `instantiate`, but its body is
not among the provided sources.  Per spec section 4.4 step 1 it checks:
`name` non-empty and containing no `/` or NUL; `builder` non-empty; and,
for a fixed-output derivation (one that declares `outputHash`),
`outputHashAlgo == "sha256"`. -/
def validateDerivation (d : Derivation) : Except ValidationError Unit :=
  if d.name = "" then .error .validationError
  else if d.name.data.contains '/' || d.name.data.contains (Char.ofNat 0) then
    .error .validationError
  else if d.builder = "" then .error .validationError
  else if d.outputHash.isSome && d.outputHashAlgo != some "sha256" then
    .error .validationError
  else .ok ()

mutual

/-- `instantiate` without its memo cache: validate, recursively
instantiate the inputs, compute the hash and the paths, add source and
builder files to the store as needed, assemble the `DrvFile` and write
it.  The pair's second component is the file system after the call (a
thrown validation error leaves the writes performed so far in place,
like a JS exception does). -/
def instantiate (sha : List Nat → List Nat) (fs0 : String → List Nat)
    (sys0 dir : String) :
    Derivation → FS → (Except ValidationError (String × String)) × FS
  | drv@(.mk name system builder args env inputs src outputHash _oha ohm), sig =>
    match validateDerivation drv with
    | .error e => (.error e, sig)
    | .ok _ =>
      let system1 := system.getD sys0
      -- first, instantiate all inputs (recursive, depth-first)
      match instantiateList sha fs0 sys0 dir (inputs.getD []) sig with
      | (.error e, sig1) => (.error e, sig1)
      | (.ok inputResults, sig1) =>
        let drvHash := hashDerivationModulo sha sys0 drv
        let outPath :=
          if truthy outputHash then
            computeFixedOutputPath sha (outputHash.getD "") (ohm.getD "flat") dir name
          else computeOutputPath sha drvHash dir name
        let drvPath := computeOutputPath sha drvHash dir name ++ ".drv"
        let srcStep : List String × FS :=
          match src with
          | some (.path p) =>
            let r := addSource sha fs0 dir sig1 p none
            ([r.1], r.2)
          | _ => ([], sig1)
        let builderStep : String × List String × FS :=
          if strStartsWith builder "/" then (builder, srcStep.1, srcStep.2)
          else if strStartsWith builder dir then (builder, srcStep.1, srcStep.2)
          else
            let r := addSource sha fs0 dir srcStep.2 builder (some (name ++ "-builder"))
            (r.1, srcStep.1 ++ [r.1], r.2)
        let inputDrvs :=
          inputResults.foldl (fun acc r => objSet acc r.1 ["out"]) []
        let envFinal :=
          let base := (env.getD []).foldl (fun acc p => objSet acc p.1 p.2) []
          let std := objSet (objSet (objSet (objSet (objSet (objSet base
            "out" outPath) "name" name) "system" system1)
            "PATH" "/path-not-set") "HOME" "/homeless-shelter") "NIX_STORE" dir
          (inputResults.enum.foldl
            (fun acc r => objSet acc ("input" ++ toString r.1) r.2.2) std)
        let drvFile : DrvFile :=
          { out := outPath, inputDrvs := inputDrvs, inputSrcs := builderStep.2.1
            system := system1, builder := builderStep.1, args := args.getD []
            env := envFinal }
        (.ok (drvPath, outPath), addDrv builderStep.2.2 drvPath drvFile)
termination_by d _ => sizeOf d
decreasing_by
  simp only [Derivation.mk.sizeOf_spec]
  rename Option (List Derivation) => inp
  cases inp with
  | none => simp [Option.getD]; omega
  | some l => simp only [Option.getD, Option.some.sizeOf_spec]; omega

/-- The `for (const input of drv.inputs ?? [])` loop of `instantiate`:
instantiate each input in order, threading the file system, collecting
each input's `(drvPath, outPath)`. -/
def instantiateList (sha : List Nat → List Nat) (fs0 : String → List Nat)
    (sys0 dir : String) :
    List Derivation → FS → (Except ValidationError (List (String × String))) × FS
  | [], sig => (.ok [], sig)
  | d :: ds, sig =>
    match instantiate sha fs0 sys0 dir d sig with
    | (.error e, sig1) => (.error e, sig1)
    | (.ok r, sig1) =>
      match instantiateList sha fs0 sys0 dir ds sig1 with
      | (.error e, sig2) => (.error e, sig2)
      | (.ok rs, sig2) => (.ok (r :: rs), sig2)
termination_by l _ => sizeOf l
decreasing_by
  · simp only [List.cons.sizeOf_spec]; omega
  · simp only [List.cons.sizeOf_spec]; omega

end


/-! ## The realizer (build execution source file: `realize`, `buildInDocker`,
`buildDirect`, `runCommand`) -/

/-- Resolved build configuration (`BuildConfig` with the defaults already
merged in). -/
structure BuildConfig where
  sandbox : String
  dockerImage : String
  network : Bool
  verbose : Bool
deriving DecidableEq

/-- A caller-supplied partial configuration. -/
structure PartialBuildConfig where
  sandbox : Option String := none
  dockerImage : Option String := none
  network : Option Bool := none
  verbose : Option Bool := none

/-- `DEFAULT_BUILD_CONFIG`. -/
def DEFAULT_BUILD_CONFIG : BuildConfig :=
  { sandbox := "docker", dockerImage := "debian:bookworm-slim"
    network := false, verbose := false }

/-- `{ ...DEFAULT_BUILD_CONFIG, ...config }`. -/
def mergeConfig (c : PartialBuildConfig) : BuildConfig :=
  { sandbox := c.sandbox.getD DEFAULT_BUILD_CONFIG.sandbox
    dockerImage := c.dockerImage.getD DEFAULT_BUILD_CONFIG.dockerImage
    network := c.network.getD DEFAULT_BUILD_CONFIG.network
    verbose := c.verbose.getD DEFAULT_BUILD_CONFIG.verbose }

/-- The argument list passed to `docker` by `buildInDocker`: network
isolation is applied when (and only when) `config.network` is false,
with no reference to whether the derivation is fixed-output (the stored
`DrvFile` carries no such marker). -/
def dockerArgs (storeDir : String) (drv : DrvFile) (config : BuildConfig)
    (outDir : String) : List String :=
  ["run", "--rm"]
  ++ (if config.network then [] else ["--network", "none"])
  ++ ["-v", storeDir ++ ":" ++ storeDir ++ ":ro",
      "-v", outDir ++ ":" ++ drv.out ++ ":rw"]
  ++ (drv.env.flatMap (fun p => ["-e", p.1 ++ "=" ++ p.2]))
  ++ ["-w", "/build", config.dockerImage]
  ++ [drv.builder] ++ drv.args

/-- Errors raised by `realize` (plain `Error`s with distinct messages in
the JS source).  `fuelOut` is an artifact of the fuel-based encoding of
the recursion over `inputDrvs` and never occurs with sufficient fuel. -/
inductive RealizeErr where
  | buildFailed (code : Nat)
  | missingOutput (p : String)
  | notDrv (p : String)
  | fuelOut
deriving DecidableEq

/-- The behaviour of `runCommand`/the builder process: given the command
and its arguments, either a non-zero exit code or the tree of files the
build deposited in its writable output directory. -/
def Exec : Type := String → List String → Except Nat (List (String × List Nat))

/-- `buildInDocker`: create the host temp output directory, run docker
with `dockerArgs` (the container mounts that directory at the output
path and may populate it), then `registerOutput(outDir, outPath)`. -/
def buildInDocker (exec : Exec) (dir : String) (sig : FS) (drv : DrvFile)
    (config : BuildConfig) : Except RealizeErr FS :=
  let outPath := drv.out
  let outDir := "/tmp/tix-build-" ++ basename outPath
  -- mkdirSync(outDir, recursive): no-op if present
  let sig1 := if fsHas sig outDir then sig else fsSet sig outDir (.dir [])
  match exec "docker" (dockerArgs dir drv config outDir) with
  | .error code => .error (.buildFailed code)
  | .ok written =>
    -- the container's writes land in outDir on the host
    let sig2 := fsSet sig1 outDir (.dir written)
    .ok (registerOutput sig2 outDir outPath)

/-- `buildDirect`: create the output directory in the store, run the
builder directly (it writes into `$out`), then
`registerOutput(outPath, outPath)`. -/
def buildDirect (exec : Exec) (sig : FS) (drv : DrvFile)
    (_config : BuildConfig) : Except RealizeErr FS :=
  let outPath := drv.out
  -- mkdirSync(outPath, recursive)
  let sig1 := if fsHas sig outPath then sig else fsSet sig outPath (.dir [])
  match exec drv.builder drv.args with
  | .error code => .error (.buildFailed code)
  | .ok written =>
    let sig2 := fsSet sig1 outPath (.dir written)
    .ok (registerOutput sig2 outPath outPath)

mutual

/-- `realize`: read the `.drv`, return the output path if already built,
recursively realize all `inputDrvs` first, dispatch to the sandbox
backend, and fail with the missing-output error if the output path is
still absent after a zero-exit build. -/
def realize (exec : Exec) (dir : String) (config : PartialBuildConfig) :
    Nat → FS → String → Except RealizeErr (String × FS)
  | 0, _, _ => .error .fuelOut
  | fuel + 1, sig, drvPath =>
    let opts := mergeConfig config
    match sig drvPath with
    | some (.drvE drv) =>
      let outPath := drv.out
      if fsHas sig outPath then .ok (outPath, sig)
      else
        match realizeList exec dir config fuel sig (drv.inputDrvs.map (fun p => p.1)) with
        | .error e => .error e
        | .ok sig1 =>
          let built :=
            if opts.sandbox = "docker" then buildInDocker exec dir sig1 drv opts
            else buildDirect exec sig1 drv opts
          match built with
          | .error e => .error e
          | .ok sig2 =>
            if fsHas sig2 outPath then .ok (outPath, sig2)
            else .error (.missingOutput outPath)
    | _ => .error (.notDrv drvPath)

/-- The `for (const [inputDrvPath] of Object.entries(drv.inputDrvs))`
recursion of `realize`. -/
def realizeList (exec : Exec) (dir : String) (config : PartialBuildConfig) :
    Nat → FS → List String → Except RealizeErr FS
  | _, sig, [] => .ok sig
  | fuel, sig, p :: ps =>
    match realize exec dir config fuel sig p with
    | .error e => .error e
    | .ok r => realizeList exec dir config fuel r.2 ps

end

/-! ## `topoSort` (src/core/derivation.ts lines 201-235)

The derivation graph is modelled as an arena (spec note E2): nodes are
indices into an adjacency list `g`, where `g[v]` lists the inputs of
node `v` (and out-of-range nodes have no inputs, like derivations with
`inputs` undefined). -/

/-- The inputs of node `v` in graph `g`. -/
def inputsOf (g : List (List Nat)) (v : Nat) : List Nat := g.getD v []

/-- Well-formed graph: every listed input is a node of the arena. -/
def WfGraph (g : List (List Nat)) : Prop :=
  ∀ l ∈ g, ∀ u ∈ l, u < g.length

instance (g : List (List Nat)) : Decidable (WfGraph g) := by
  unfold WfGraph; infer_instance

/-- The traversal state of `topoSort`: the `visited` set and the
`result` array (updated together on exit from a node). -/
structure TpState where
  visited : List Nat
  result : List Nat
deriving DecidableEq

/-- The error thrown by `topoSort` (`Circular dependency detected`),
carrying the cycle `[...path.slice(cycleStart), drv]`.  `fuelOut` is an
artifact of the fuel-based encoding and never occurs with the fuel
`topoSort` supplies (proved below). -/
inductive TopoErr where
  | cycle (cyc : List Nat)
  | fuelOut
deriving DecidableEq

mutual

/-- The inner `visit` function of `topoSort`. -/
def visit (g : List (List Nat)) : Nat → List Nat → Nat → TpState →
    Except TopoErr TpState
  | 0, _, _, _ => .error .fuelOut
  | fuel + 1, path, v, st =>
    if v ∈ st.visited then .ok st
    else if v ∈ path then
      .error (.cycle (path.drop (path.indexOf v) ++ [v]))
    else
      match visitList g fuel (path ++ [v]) (inputsOf g v) st with
      | .error e => .error e
      | .ok st1 => .ok ⟨st1.visited ++ [v], st1.result ++ [v]⟩
termination_by fuel _ _ _ => (fuel, 0)

/-- The loop over a node's inputs inside `visit` (and over the roots in
`topoSort` itself). -/
def visitList (g : List (List Nat)) : Nat → List Nat → List Nat → TpState →
    Except TopoErr TpState
  | _, _, [], st => .ok st
  | fuel, path, u :: us, st =>
    match visit g fuel path u st with
    | .error e => .error e
    | .ok st1 => visitList g fuel path us st1
termination_by fuel _ l _ => (fuel, l.length + 1)

end

/-- `topoSort` on root indices: run `visit` over the roots with a shared
state and return the accumulated post-order.  The fuel `g.length + 1`
dominates the recursion depth, which is bounded by the length of the
(duplicate-free) path. -/
def topoSort (g : List (List Nat)) (roots : List Nat) :
    Except TopoErr (List Nat) :=
  match visitList g (g.length + 1) [] roots ⟨[], []⟩ with
  | .error e => .error e
  | .ok st => .ok st.result

/-- Reachability in the derivation graph (a node reaches itself). -/
inductive Reaches (g : List (List Nat)) : Nat → Nat → Prop
  | refl (v : Nat) : Reaches g v v
  | step {u v w : Nat} : v ∈ inputsOf g u → Reaches g v w → Reaches g u w

/-- A (non-trivial) cycle: at least two entries, consecutive entries are
edges, and the list returns to its starting node. -/
def IsCycle (g : List (List Nat)) (c : List Nat) : Prop :=
  2 ≤ c.length ∧ c.Chain' (fun a b => b ∈ inputsOf g a) ∧ c.head? = c.getLast?

/-- `l` is topologically ordered for `g`: every input of a member
appears in `l`, strictly before it. -/
def TopoOrdered (g : List (List Nat)) (l : List Nat) : Prop :=
  ∀ u ∈ l, ∀ v ∈ inputsOf g u, v ∈ l ∧ l.indexOf v < l.indexOf u


/-! ## Claims -/

/-! ### C7: the Nix32 encoding -/

lemma nix32Coef_lt_32 (reversed : List Nat) (n : Nat) : nix32Coef reversed n < 32 := by
  unfold nix32Coef
  dsimp only
  have h1 : (reversed.getD (n * 5 / 8) 0 >>> (n * 5 % 8)) &&& 0x1f < 32 := by
    have := Nat.and_le_right (n := reversed.getD (n * 5 / 8) 0 >>> (n * 5 % 8)) (m := 0x1f)
    omega
  split
  · have h2 : (reversed.getD (n * 5 / 8 + 1) 0 <<< (8 - n * 5 % 8)) &&& 0x1f < 32 := by
      have := Nat.and_le_right
        (n := reversed.getD (n * 5 / 8 + 1) 0 <<< (8 - n * 5 % 8)) (m := 0x1f)
      omega
    have : (32 : Nat) = 2 ^ 5 := by norm_num
    rw [this] at h1 h2 ⊢
    exact Nat.or_lt_two_pow h1 h2
  · exact h1

lemma nix32Encode_data (B : List Nat) (h : B.length ≠ 0) :
    (nix32Encode B).data =
      (((List.range ((B.length * 8 + 4) / 5)).map
        (fun n => NIX32_ALPHABET.data.getD (nix32Coef B.reverse n) ' ')).reverse) := by
  unfold nix32Encode
  simp [h]

/-- C7: `nix32Encode` of a byte buffer of length `L` outputs exactly
`⌈8·L/5⌉` characters over the Nix32 alphabet, with the character of
5-bit group `n` (extracted from the reversed buffer, LSB-first) placed
at output position `N−1−n`; 20 zero bytes encode to all `0`s and
20 `0xff` bytes to all `z`s. -/
theorem c7_nix32_encoding :
    (∀ B : List Nat, (nix32Encode B).length = (8 * B.length + 4) / 5)
  ∧ (∀ B : List Nat, ∀ c ∈ (nix32Encode B).data, c ∈ NIX32_ALPHABET.data)
  ∧ (∀ B : List Nat, ∀ n : Nat, n < (8 * B.length + 4) / 5 →
      (nix32Encode B).data.getD ((8 * B.length + 4) / 5 - 1 - n) ' '
        = NIX32_ALPHABET.data.getD (nix32Coef B.reverse n) ' ')
  ∧ nix32Encode (List.replicate 20 0) = "00000000000000000000000000000000"
  ∧ nix32Encode (List.replicate 20 0xff) = "zzzzzzzzzzzzzzzzzzzzzzzzzzzzzzzz" := by
  refine ⟨?_, ?_, ?_, by decide, by decide⟩
  · intro B
    by_cases h : B.length = 0
    · unfold nix32Encode
      simp [h]
    · show (nix32Encode B).data.length = _
      rw [nix32Encode_data B h]
      simp [Nat.mul_comm]
  · intro B c hc
    by_cases h : B.length = 0
    · unfold nix32Encode at hc
      simp [h] at hc
    · rw [nix32Encode_data B h] at hc
      rw [List.mem_reverse] at hc
      obtain ⟨n, _, rfl⟩ := List.mem_map.mp hc
      have hlt : nix32Coef B.reverse n < NIX32_ALPHABET.data.length :=
        nix32Coef_lt_32 B.reverse n
      rw [List.getD_eq_getElem _ _ hlt]
      exact List.getElem_mem hlt
  · intro B n hn
    have h : B.length ≠ 0 := by
      intro h0
      rw [h0] at hn
      omega
    rw [nix32Encode_data B h]
    set N := (B.length * 8 + 4) / 5 with hN
    have hN8 : (8 * B.length + 4) / 5 = N := by rw [hN, Nat.mul_comm]
    rw [hN8] at hn ⊢
    have hlen : (((List.range N).map
        (fun n => NIX32_ALPHABET.data.getD (nix32Coef B.reverse n) ' ')).reverse).length = N := by
      simp
    have hidx : N - 1 - n < N := by omega
    rw [List.getD_eq_getElem _ _ (by rw [hlen]; exact hidx)]
    rw [List.getElem_reverse]
    simp only [List.length_map, List.length_range]
    have hix : N - 1 - (N - 1 - n) = n := by omega
    simp only [hix]
    rw [List.getElem_map, List.getElem_range]

/-- Witness for C7: the positional clause at `B = [1]`, `n = 0` (with
output length 2 and position 1). -/
theorem c7_nix32_encoding_witness :
    (nix32Encode [1]).data.getD ((8 * [1].length + 4) / 5 - 1 - 0) ' '
      = NIX32_ALPHABET.data.getD (nix32Coef ([1] : List Nat).reverse 0) ' ' :=
  c7_nix32_encoding.2.2.1 [1] 0 (by decide)


/-! ### C8: first writer wins in the store -/

/-- A tiny concrete file system with one store entry, for the C8
counterexample. -/
def c8FS : FS :=
  fun q => if q = "/tix/store/aaaa-x" then some (.dir [("f", [1])]) else none

/-- Counterexample to C8 as stated: `registerOutput` "targeting" an
existing path `p` with the temporary path *equal* to `p` (exactly the
`registerOutput(outPath, outPath)` call `buildDirect` makes) removes the
entry at `p` rather than leaving its bytes unchanged: the branch for an
existing final path runs `rmSync(tempPath)`, and here `tempPath` is `p`
itself. -/
theorem c8_counterexample :
    fsHas c8FS "/tix/store/aaaa-x" = true
  ∧ registerOutput c8FS "/tix/store/aaaa-x" "/tix/store/aaaa-x" "/tix/store/aaaa-x" = none
  ∧ c8FS "/tix/store/aaaa-x" ≠ none := by
  refine ⟨by decide, ?_, by decide⟩
  unfold registerOutput
  rw [if_pos (by decide)]
  simp [fsErase]

/-- C8 (amended): store entries already present at their final path are
never overwritten: with `has(p)` true, `addSource` computing `p` returns
`p` and leaves the store untouched, `addWithPath`/`addDrv` at `p` are
no-ops, and `registerOutput(tempPath, p)` discards the temporary
directory and leaves the entry at `p` unchanged — provided the
temporary path is not `p` itself (when `tempPath = p`, as in
`buildDirect`'s self-registration, the cleanup removes the entry). -/
theorem c8_no_overwrite (sha : List Nat → List Nat) (fs0 : String → List Nat)
    (dir : String) (sig : FS) (p : String) (h : fsHas sig p = true) :
    (∀ localPath nameArg,
        computeSourcePath sha (sha256Hex sha (fs0 localPath)) dir
          (Option.getD nameArg (basename localPath)) = p →
        addSource sha fs0 dir sig localPath nameArg = (p, sig))
  ∧ (∀ content, addWithPath sig p content = sig)
  ∧ (∀ df, addDrv sig p df = sig)
  ∧ (∀ tempPath, tempPath ≠ p →
        registerOutput sig tempPath p = fsErase sig tempPath
      ∧ registerOutput sig tempPath p p = sig p) := by
  refine ⟨?_, ?_, ?_, ?_⟩
  · intro localPath nameArg hpath
    unfold addSource
    dsimp only
    rw [hpath]
    simp [h]
  · intro content
    simp [addWithPath, h]
  · intro df
    simp [addDrv, h]
  · intro tempPath hne
    have h1 : registerOutput sig tempPath p = fsErase sig tempPath := by
      simp [registerOutput, h]
    refine ⟨h1, ?_⟩
    rw [h1]
    simp [fsErase, hne.symm]

/-- Witness for C8 (amended) at a concrete one-entry store. -/
theorem c8_no_overwrite_witness :
    addWithPath c8FS "/tix/store/aaaa-x" [9] = c8FS
  ∧ registerOutput c8FS "/tmp/t" "/tix/store/aaaa-x" "/tix/store/aaaa-x"
      = c8FS "/tix/store/aaaa-x" := by
  have h := c8_no_overwrite (fun b => b) (fun _ => []) "/tix/store" c8FS
    "/tix/store/aaaa-x" (by decide)
  exact ⟨h.2.1 [9], (h.2.2.2 "/tmp/t" (by decide)).2⟩


/-! ### C9: instantiate validates before any store I/O -/

lemma validateDerivation_ok_iff (d : Derivation) :
    validateDerivation d = .ok () ↔
      (d.name ≠ "" ∧ d.name.data.contains '/' = false
        ∧ d.name.data.contains (Char.ofNat 0) = false ∧ d.builder ≠ ""
        ∧ (d.outputHash.isSome = true → d.outputHashAlgo = some "sha256")) := by
  unfold validateDerivation
  split_ifs with h1 h2 h3 h4
  · simp [h1]
  · simp only [Bool.or_eq_true] at h2
    constructor
    · intro h; cases h
    · rintro ⟨_, hc1, hc2, _⟩
      rw [hc1, hc2] at h2
      simp at h2
  · simp [h3]
  · simp only [Bool.and_eq_true, bne_iff_ne] at h4
    constructor
    · intro h; cases h
    · rintro ⟨_, _, _, _, hfix⟩
      exact h4.2 (hfix h4.1)
  · simp only [Bool.or_eq_true, not_or] at h2
    simp only [Bool.and_eq_true, bne_iff_ne, not_and] at h4
    refine ⟨fun _ => ⟨h1, ?_, ?_, h3, ?_⟩, fun _ => rfl⟩
    · cases hc : d.name.data.contains '/'
      · rfl
      · exact absurd hc h2.1
    · cases hc : d.name.data.contains (Char.ofNat 0)
      · rfl
      · exact absurd hc h2.2
    · intro hs
      exact not_not.mp (h4 hs)

lemma validateDerivation_error (d : Derivation)
    (h : d.name = "" ∨ d.name.data.contains '/' = true
       ∨ d.name.data.contains (Char.ofNat 0) = true ∨ d.builder = ""
       ∨ (d.outputHash.isSome = true ∧ d.outputHashAlgo ≠ some "sha256")) :
    validateDerivation d = .error .validationError := by
  match hv : validateDerivation d with
  | .error e => cases e; rfl
  | .ok u =>
    cases u
    have := (validateDerivation_ok_iff d).mp hv
    obtain ⟨h1, h2, h3, h4, h5⟩ := this
    rcases h with h | h | h | h | ⟨ha, hb⟩
    · exact absurd h h1
    · rw [h2] at h; cases h
    · rw [h3] at h; cases h
    · exact absurd h h4
    · exact absurd (h5 ha) hb

/-- C9 (spec-modelled `validateDerivation`): `instantiate` validates its
derivation before doing any store I/O and fails with a `ValidationError`
when the name is empty or contains `/` or NUL, when the builder is
empty, or when a fixed-output derivation declares an `outputHashAlgo`
other than `"sha256"`; for every such invalid derivation the store is
left untouched — in particular no `.drv` file is written. -/
theorem c9_validation (sha : List Nat → List Nat) (fs0 : String → List Nat)
    (sys0 dir : String) (d : Derivation) (sig : FS)
    (h : d.name = "" ∨ d.name.data.contains '/' = true
       ∨ d.name.data.contains (Char.ofNat 0) = true ∨ d.builder = ""
       ∨ (d.outputHash.isSome = true ∧ d.outputHashAlgo ≠ some "sha256")) :
    (instantiate sha fs0 sys0 dir d sig).1 = .error .validationError
  ∧ (instantiate sha fs0 sys0 dir d sig).2 = sig := by
  have hv := validateDerivation_error d h
  cases d with
  | mk n sys b a e i s oh oha ohm =>
    rw [instantiate, hv]
    exact ⟨rfl, rfl⟩

/-- Witness for C9: a derivation with an empty name (and an otherwise
empty store) is rejected, leaving the store empty. -/
theorem c9_validation_witness :
    (instantiate (fun b => b) (fun _ => []) "x86_64-linux" "/tix/store"
      (.mk "" none "/bin/sh" none none none none none none none) (fun _ => none)).1
      = .error .validationError
  ∧ (instantiate (fun b => b) (fun _ => []) "x86_64-linux" "/tix/store"
      (.mk "" none "/bin/sh" none none none none none none none) (fun _ => none)).2
      = (fun _ => none) :=
  c9_validation (fun b => b) (fun _ => []) "x86_64-linux" "/tix/store"
    (.mk "" none "/bin/sh" none none none none none none none) (fun _ => none)
    (Or.inl rfl)


/-! ### C1 / C10: the fixed-output and regular branches -/

/-- The fixed-output branch of `hashDerivationModulo`: when `outputHash`
is truthy, the hash is the SHA-256 of the fixed-output fingerprint,
independent of everything else. -/
lemma hashDerivationModulo_fixed (sha : List Nat → List Nat) (sys0 : String)
    (n : String) (sys : Option String) (b : String) (a : Option (List String))
    (e : Option (List (String × String))) (i : Option (List Derivation))
    (s : Option Source) (oh : Option String) (oha ohm : Option String)
    (h : truthy oh = true) :
    hashDerivationModulo sha sys0 (.mk n sys b a e i s oh oha ohm)
      = sha256HexStr sha
          ("fixed:out:" ++ (if ohm.getD "flat" = "recursive" then "r:" else "")
            ++ "sha256:" ++ oh.getD "" ++ ":") := by
  rw [hashDerivationModulo]
  simp [h]

/-- The regular branch of `hashDerivationModulo`: when `outputHash` is
falsy, the hashable record does not mention `outputHash`,
`outputHashAlgo` or `outputHashMode` at all. -/
lemma hashDerivationModulo_regular (sha : List Nat → List Nat) (sys0 : String)
    (n : String) (sys : Option String) (b : String) (a : Option (List String))
    (e : Option (List (String × String))) (i : Option (List Derivation))
    (s : Option Source) (oh1 oh2 : Option String) (oha1 oha2 ohm1 ohm2 : Option String)
    (h1 : truthy oh1 = false) (h2 : truthy oh2 = false) :
    hashDerivationModulo sha sys0 (.mk n sys b a e i s oh1 oha1 ohm1)
      = hashDerivationModulo sha sys0 (.mk n sys b a e i s oh2 oha2 ohm2) := by
  rw [hashDerivationModulo, hashDerivationModulo]
  simp [h1, h2]

/-- When `instantiate` succeeds, the returned output path is the
fixed-output path for truthy `outputHash` and the input-addressed path
otherwise. -/
lemma instantiate_ok_outPath (sha : List Nat → List Nat) (fs0 : String → List Nat)
    (sys0 dir : String)
    (n : String) (sys : Option String) (b : String) (a : Option (List String))
    (e : Option (List (String × String))) (i : Option (List Derivation))
    (s : Option Source) (oh oha ohm : Option String) (sig : FS)
    (r : String × String)
    (hins : (instantiate sha fs0 sys0 dir (.mk n sys b a e i s oh oha ohm) sig).1
      = .ok r) :
    r.2 = if truthy oh then
        computeFixedOutputPath sha (oh.getD "") (ohm.getD "flat") dir n
      else
        computeOutputPath sha
          (hashDerivationModulo sha sys0 (.mk n sys b a e i s oh oha ohm)) dir n := by
  rw [instantiate] at hins
  split at hins
  · simp at hins
  · split at hins
    · simp at hins
    · simp only [Except.ok.injEq] at hins
      rw [← hins]

/-- C1: two fixed-output derivations (non-empty declared `outputHash`)
with the same name and identical `outputHash`, `outputHashAlgo` and
`outputHashMode` — but arbitrarily different builder, args, env, system
and inputs — get the same derivation-modulo hash, and `instantiate` in
the same store returns the same output path for both. -/
theorem c1_fixed_output_isolation
    (sha : List Nat → List Nat) (fs0 : String → List Nat) (sys0 dir : String)
    (n : String) (sys1 sys2 : Option String) (b1 b2 : String)
    (a1 a2 : Option (List String)) (e1 e2 : Option (List (String × String)))
    (i1 i2 : Option (List Derivation)) (s1 s2 : Option Source)
    (h : String) (hne : h ≠ "") (oha ohm : Option String) :
    hashDerivationModulo sha sys0 (.mk n sys1 b1 a1 e1 i1 s1 (some h) oha ohm)
      = hashDerivationModulo sha sys0 (.mk n sys2 b2 a2 e2 i2 s2 (some h) oha ohm)
  ∧ ∀ (sigA sigB : FS) (r1 r2 : String × String),
      (instantiate sha fs0 sys0 dir (.mk n sys1 b1 a1 e1 i1 s1 (some h) oha ohm) sigA).1
        = .ok r1 →
      (instantiate sha fs0 sys0 dir (.mk n sys2 b2 a2 e2 i2 s2 (some h) oha ohm) sigB).1
        = .ok r2 →
      r1.2 = r2.2 := by
  have htr : truthy (some h) = true := by simp [truthy, hne]
  constructor
  · rw [hashDerivationModulo_fixed sha sys0 n sys1 b1 a1 e1 i1 s1 (some h) oha ohm htr,
        hashDerivationModulo_fixed sha sys0 n sys2 b2 a2 e2 i2 s2 (some h) oha ohm htr]
  · intro sigA sigB r1 r2 hA hB
    have h1 := instantiate_ok_outPath sha fs0 sys0 dir n sys1 b1 a1 e1 i1 s1
      (some h) oha ohm sigA r1 hA
    have h2 := instantiate_ok_outPath sha fs0 sys0 dir n sys2 b2 a2 e2 i2 s2
      (some h) oha ohm sigB r2 hB
    rw [h1, h2, if_pos htr, if_pos htr]


/-- A concrete fixed-output derivation (C1 witness, variant A). -/
def c1DrvA : Derivation :=
  .mk "pkg" none "/bin/sh" none none none none (some "aa") (some "sha256") none

/-- Another fixed-output derivation with the same name and declared
output hash but different system, builder, args, env and inputs (C1
witness, variant B). -/
def c1DrvB : Derivation :=
  .mk "pkg" (some "aarch64-linux") "/bin/fetch" (some ["-c", "get"])
    (some [("URL", "http://b")])
    (some [.mk "dep" none "/bin/sh" none none none none (some "bb") (some "sha256") none])
    none (some "aa") (some "sha256") none

/-- Witness for C1 at `c1DrvA`/`c1DrvB` in the store `/tix/store` (with
a stub SHA-256): equal hashes and equal output paths from concrete
`instantiate` runs. -/
theorem c1_fixed_output_isolation_witness :
    hashDerivationModulo (fun _ => []) "x86_64-linux" c1DrvA
      = hashDerivationModulo (fun _ => []) "x86_64-linux" c1DrvB
  ∧ ("/tix/store/-pkg.drv", "/tix/store/-pkg").2
      = ("/tix/store/-pkg.drv", "/tix/store/-pkg").2 := by
  have h := c1_fixed_output_isolation (fun _ => []) (fun _ => []) "x86_64-linux"
    "/tix/store" "pkg" none (some "aarch64-linux") "/bin/sh" "/bin/fetch"
    none (some ["-c", "get"]) none (some [("URL", "http://b")])
    none (some [.mk "dep" none "/bin/sh" none none none none (some "bb") (some "sha256") none])
    none none "aa" (by decide) (some "sha256") none
  refine ⟨h.1, ?_⟩
  refine h.2 (fun _ => none) (fun _ => none) _ _ ?_ ?_
  · show (instantiate (fun _ => []) (fun _ => []) "x86_64-linux" "/tix/store"
      c1DrvA (fun _ => none)).1 = _
    simp only [c1DrvA, instantiate, instantiateList, Option.getD_none, Option.getD_some]
    rfl
  · show (instantiate (fun _ => []) (fun _ => []) "x86_64-linux" "/tix/store"
      c1DrvB (fun _ => none)).1 = _
    simp only [c1DrvB, instantiate, instantiateList, Option.getD_none, Option.getD_some]
    rfl


/-- C10: a derivation whose `outputHash` is present but empty is treated
as a regular input-addressed derivation (`if (drv.outputHash)` is falsy
on `""`): its derivation-modulo hash equals that of the same derivation
without `outputHash`, and `instantiate` computes its output path through
the input-addressed branch, not the fixed-output fingerprint. -/
theorem c10_empty_outputHash (sha : List Nat → List Nat) (fs0 : String → List Nat)
    (sys0 dir : String) (n : String) (sys : Option String) (b : String)
    (a : Option (List String)) (e : Option (List (String × String)))
    (i : Option (List Derivation)) (s : Option Source) (oha ohm : Option String) :
    hashDerivationModulo sha sys0 (.mk n sys b a e i s (some "") oha ohm)
      = hashDerivationModulo sha sys0 (.mk n sys b a e i s none oha ohm)
  ∧ ∀ (sig : FS) (r : String × String),
      (instantiate sha fs0 sys0 dir (.mk n sys b a e i s (some "") oha ohm) sig).1
        = .ok r →
      r.2 = computeOutputPath sha
        (hashDerivationModulo sha sys0 (.mk n sys b a e i s (some "") oha ohm)) dir n := by
  have hf : truthy (some "") = false := rfl
  constructor
  · exact hashDerivationModulo_regular sha sys0 n sys b a e i s (some "") none
      oha oha ohm ohm hf rfl
  · intro sig r hins
    have h := instantiate_ok_outPath sha fs0 sys0 dir n sys b a e i s
      (some "") oha ohm sig r hins
    rw [h, if_neg (by simp [hf])]

/-- A concrete derivation with `outputHash` present but empty (C10
witness). -/
def c10Drv : Derivation :=
  .mk "pkg" none "/bin/sh" none none none none (some "") (some "sha256") none

/-- Witness for C10: with a stub SHA-256, `instantiate` of `c10Drv`
returns the input-addressed output path. -/
theorem c10_empty_outputHash_witness :
    hashDerivationModulo (fun _ => []) "x86_64-linux" c10Drv
      = hashDerivationModulo (fun _ => []) "x86_64-linux"
          (.mk "pkg" none "/bin/sh" none none none none none (some "sha256") none)
  ∧ ("/tix/store/-pkg.drv", "/tix/store/-pkg").2
      = computeOutputPath (fun _ => [])
          (hashDerivationModulo (fun _ => []) "x86_64-linux" c10Drv) "/tix/store" "pkg" := by
  have h := c10_empty_outputHash (fun _ => []) (fun _ => []) "x86_64-linux" "/tix/store"
    "pkg" none "/bin/sh" none none none none (some "sha256") none
  refine ⟨h.1, ?_⟩
  refine h.2 (fun _ => none) _ ?_
  show (instantiate (fun _ => []) (fun _ => []) "x86_64-linux" "/tix/store"
    c10Drv (fun _ => none)).1 = _
  simp only [c10Drv, instantiate, instantiateList, Option.getD_none, Option.getD_some]
  rfl


/-! ### C5: the network flag and fixed-output derivations -/

/-- A concrete fixed-output (fetch-style) derivation for the C5
counterexample. -/
def c5Drv : Derivation :=
  .mk "fetch" none "/bin/curl" (some ["-o", "out"]) none none none
    (some "cc") (some "sha256") none

/-- The derivation file `instantiate` stores for `c5Drv` (with the stub
SHA-256 `fun _ => []` in the store `/tix/store`). -/
def c5Df : DrvFile :=
  { out := "/tix/store/-fetch", inputDrvs := [], inputSrcs := []
    system := "x86_64-linux", builder := "/bin/curl", args := ["-o", "out"]
    env := [("out", "/tix/store/-fetch"), ("name", "fetch"),
            ("system", "x86_64-linux"), ("PATH", "/path-not-set"),
            ("HOME", "/homeless-shelter"), ("NIX_STORE", "/tix/store")] }

/-- Counterexample to C5 as stated: `c5Drv` is fixed-output, its `.drv`
file is `c5Df`, and with `network = false` in the configuration the
docker invocation for `c5Df` still contains `--network none` — the
container sandbox disables the network for a fixed-output derivation
instead of always permitting it. -/
theorem c5_counterexample :
    truthy c5Drv.outputHash = true
  ∧ (instantiate (fun _ => []) (fun _ => []) "x86_64-linux" "/tix/store"
      c5Drv (fun _ => none)).2 "/tix/store/-fetch.drv" = some (.drvE c5Df)
  ∧ (mergeConfig { network := some false }).network = false
  ∧ (dockerArgs "/tix/store" c5Df (mergeConfig { network := some false })
      "/tmp/tix-build--fetch").take 4 = ["run", "--rm", "--network", "none"] := by
  refine ⟨rfl, ?_, rfl, rfl⟩
  simp only [c5Drv, instantiate, instantiateList, Option.getD_none, Option.getD_some]
  rfl

/-- C5 (amended): under the container sandbox the network arguments
depend only on the configuration's `network` flag, for every derivation
file alike — the flag is *not* ignored for fixed-output derivations
(the stored `DrvFile` carries no fixed-output marker at all): with
`network = false` the docker command starts
`run --rm --network none ...`, and with `network = true` the isolation
arguments are absent and the mounts follow directly. -/
theorem c5_network_flag (dir : String) (drv : DrvFile) (config : BuildConfig)
    (outDir : String) :
    (config.network = false →
      (dockerArgs dir drv config outDir).take 4 = ["run", "--rm", "--network", "none"])
  ∧ (config.network = true →
      (dockerArgs dir drv config outDir).take 2 = ["run", "--rm"]
      ∧ (dockerArgs dir drv config outDir).getD 2 "" = "-v") := by
  constructor
  · intro h
    simp only [dockerArgs, h]
    rfl
  · intro h
    simp only [dockerArgs, h]
    exact ⟨rfl, rfl⟩

/-- Witness for C5 (amended) at `c5Df` and both flag values. -/
theorem c5_network_flag_witness :
    (dockerArgs "/tix/store" c5Df (mergeConfig { network := some true })
      "/tmp/tix-build--fetch").take 2 = ["run", "--rm"]
  ∧ (dockerArgs "/tix/store" c5Df DEFAULT_BUILD_CONFIG
      "/tmp/tix-build--fetch").take 4 = ["run", "--rm", "--network", "none"] :=
  ⟨(c5_network_flag "/tix/store" c5Df (mergeConfig { network := some true })
      "/tmp/tix-build--fetch").2 rfl |>.1,
   (c5_network_flag "/tix/store" c5Df DEFAULT_BUILD_CONFIG
      "/tmp/tix-build--fetch").1 rfl⟩


/-! ### C6: zero-exit builds that produce nothing -/

/-- One unfolding step of `realize` when the `.drv` is found. -/
lemma realize_eq_of_drv (exec : Exec) (dir : String) (config : PartialBuildConfig)
    (fuel : Nat) (sig : FS) (drvPath : String) (drv : DrvFile)
    (hdrv : sig drvPath = some (.drvE drv)) :
    realize exec dir config (fuel + 1) sig drvPath =
      (if fsHas sig drv.out then .ok (drv.out, sig)
       else
         match realizeList exec dir config fuel sig
             (drv.inputDrvs.map (fun p => p.1)) with
         | .error e => .error e
         | .ok sig1 =>
           match (if (mergeConfig config).sandbox = "docker" then
               buildInDocker exec dir sig1 drv (mergeConfig config)
             else buildDirect exec sig1 drv (mergeConfig config)) with
           | .error e => .error e
           | .ok sig2 =>
             if fsHas sig2 drv.out then .ok (drv.out, sig2)
             else .error (.missingOutput drv.out)) := by
  rw [realize, hdrv]

/-- A concrete derivation file with no inputs (C6). -/
def c6Df : DrvFile :=
  { out := "/tix/store/aaaa-x", inputDrvs := [], inputSrcs := []
    system := "x86_64-linux", builder := "/bin/sh", args := [], env := [] }

/-- A store holding only the `.drv` for `c6Df`. -/
def c6FS : FS :=
  fun q => if q = "/tix/store/aaaa-x.drv" then some (.drvE c6Df) else none

/-- A builder that exits zero and creates nothing. -/
def c6Exec : Exec := fun _ _ => .ok []

/-- Counterexample to C6 as stated: under the (default) docker sandbox a
builder that exits zero and creates nothing does *not* make `realize`
fail with the missing-output error — the pre-created output mount
directory is registered as the (empty) output and `realize` succeeds. -/
theorem c6_counterexample :
    ((realize c6Exec "/tix/store" {} 1 c6FS "/tix/store/aaaa-x.drv").toOption.map
        (fun r => (r.1, r.2 "/tix/store/aaaa-x")))
      = some ("/tix/store/aaaa-x", some (.dir [])) := by
  rw [realize_eq_of_drv c6Exec "/tix/store" {} 0 c6FS "/tix/store/aaaa-x.drv" c6Df rfl]
  rw [show List.map (fun p => p.1) c6Df.inputDrvs = ([] : List String) from rfl]
  rw [realizeList]
  simp only []
  rfl

/-- C6 (amended): `realize` raises the missing-output error exactly when
the output path is still absent after the sandbox step.  Under the
docker sandbox a zero-exit builder always leaves the output registered
(the mounted temp directory is renamed in, even when the builder wrote
nothing), so `realize` succeeds and an empty output can be registered;
under the direct sandbox `registerOutput(outPath, outPath)` removes the
pre-created output path, so a zero-exit build always ends in the
missing-output error. -/
theorem c6_missing_output (exec : Exec) (dir : String)
    (config : PartialBuildConfig) (fuel : Nat) (sig : FS) (drvPath : String)
    (drv : DrvFile) (written : List (String × List Nat))
    (hdrv : sig drvPath = some (.drvE drv))
    (hout : fsHas sig drv.out = false)
    (hinputs : drv.inputDrvs = [])
    (hne : drv.out ≠ "/tmp/tix-build-" ++ basename drv.out) :
    ((mergeConfig config).sandbox = "docker" →
      exec "docker" (dockerArgs dir drv (mergeConfig config)
          ("/tmp/tix-build-" ++ basename drv.out)) = .ok written →
      ((realize exec dir config (fuel + 1) sig drvPath).toOption.map
          (fun r => (r.1, r.2 drv.out)))
        = some (drv.out, some (.dir written)))
  ∧ ((mergeConfig config).sandbox ≠ "docker" →
      exec drv.builder drv.args = .ok written →
      realize exec dir config (fuel + 1) sig drvPath
        = .error (.missingOutput drv.out)) := by
  constructor
  · intro hsand hexec
    rw [realize_eq_of_drv exec dir config fuel sig drvPath drv hdrv]
    rw [hout]
    simp only [Bool.false_eq_true, if_false]
    rw [hinputs]
    simp only [List.map_nil]
    rw [realizeList]
    simp only []
    rw [if_pos hsand]
    unfold buildInDocker
    dsimp only
    rw [hexec]
    simp only []
    set outDir := "/tmp/tix-build-" ++ basename drv.out with houtDir
    set sig1 := if fsHas sig outDir = true then sig else fsSet sig outDir (.dir [])
      with hsig1
    have hsig1out : fsHas sig1 drv.out = false := by
      rw [hsig1]
      split
      · exact hout
      · simp only [fsHas, fsSet]
        rw [if_neg hne]
        exact hout
    have hro : registerOutput (fsSet sig1 outDir (.dir written)) outDir drv.out
        = fsSet (fsErase (fsSet sig1 outDir (.dir written)) outDir) drv.out
            (.dir written) := by
      unfold registerOutput
      rw [if_neg (by simp only [fsHas, fsSet]; rw [if_neg hne]; simpa [fsHas] using hsig1out)]
      rw [show fsSet sig1 outDir (.dir written) outDir = some (.dir written) by
        simp [fsSet]]
    rw [hro]
    rw [if_pos (by simp [fsHas, fsSet])]
    simp only [Except.toOption, Option.map_some]
    simp [fsSet]
  · intro hsand hexec
    rw [realize_eq_of_drv exec dir config fuel sig drvPath drv hdrv]
    rw [hout]
    simp only [Bool.false_eq_true, if_false]
    rw [hinputs]
    simp only [List.map_nil]
    rw [realizeList]
    simp only []
    rw [if_neg hsand]
    unfold buildDirect
    dsimp only
    rw [hout]
    simp only [Bool.false_eq_true, if_false]
    rw [hexec]
    simp only []
    have hro : registerOutput (fsSet (fsSet sig drv.out (.dir [])) drv.out
        (.dir written)) drv.out drv.out
        = fsErase (fsSet (fsSet sig drv.out (.dir [])) drv.out (.dir written))
            drv.out := by
      unfold registerOutput
      rw [if_pos (by simp [fsHas, fsSet])]
    rw [hro]
    rw [if_neg (by simp [fsHas, fsErase])]

/-- Witness for C6 (amended): both clauses at `c6Df` with a builder that
writes one file, under the docker sandbox and under the direct
sandbox. -/
theorem c6_missing_output_witness :
    ((realize (fun _ _ => .ok [("f", [7])]) "/tix/store" {} 1 c6FS
        "/tix/store/aaaa-x.drv").toOption.map
      (fun r => (r.1, r.2 c6Df.out)))
      = some (c6Df.out, some (.dir [("f", [7])]))
  ∧ realize (fun _ _ => .ok [("f", [7])]) "/tix/store"
      { sandbox := some "none" } 1 c6FS "/tix/store/aaaa-x.drv"
      = .error (.missingOutput c6Df.out) := by
  have h := c6_missing_output (fun _ _ => .ok [("f", [7])]) "/tix/store" {} 0 c6FS
    "/tix/store/aaaa-x.drv" c6Df [("f", [7])] rfl rfl rfl (by decide)
  have h2 := c6_missing_output (fun _ _ => .ok [("f", [7])]) "/tix/store"
    { sandbox := some "none" } 0 c6FS
    "/tix/store/aaaa-x.drv" c6Df [("f", [7])] rfl rfl rfl (by decide)
  exact ⟨h.1 rfl rfl, h2.2 (by decide) rfl⟩


/-! ### C4: the order in which `stableStringify` emits keys -/

lemma unitsLe_trans : ∀ a b c : List Nat, unitsLe a b = true → unitsLe b c = true →
    unitsLe a c = true
  | [], _, _, _, _ => rfl
  | _ :: _, [], _, h1, _ => by simp [unitsLe] at h1
  | _ :: _, _ :: _, [], _, h2 => by simp [unitsLe] at h2
  | a :: as, b :: bs, c :: cs, h1, h2 => by
    simp only [unitsLe] at h1 h2 ⊢
    split_ifs at h1 h2 ⊢ <;>
      first
        | rfl
        | exact unitsLe_trans as bs cs h1 h2
        | exact absurd h1 (by decide)
        | exact absurd h2 (by decide)
        | (exfalso; omega)

lemma unitsLe_total : ∀ a b : List Nat, unitsLe a b = true ∨ unitsLe b a = true
  | [], _ => Or.inl rfl
  | _ :: _, [] => Or.inr rfl
  | a :: as, b :: bs => by
    simp only [unitsLe]
    rcases Nat.lt_trichotomy a b with h | h | h
    · left
      rw [if_pos h]
    · subst h
      rcases unitsLe_total as bs with h | h
      · left
        rw [if_neg (lt_irrefl a), if_neg (lt_irrefl a), h]
      · right
        rw [if_neg (lt_irrefl a), if_neg (lt_irrefl a), h]
    · right
      rw [if_pos h]

lemma jsStrLe_trans (a b c : String) (h1 : jsStrLe a b = true) (h2 : jsStrLe b c = true) :
    jsStrLe a c = true :=
  unitsLe_trans _ _ _ h1 h2

lemma jsStrLe_total (a b : String) : (jsStrLe a b || jsStrLe b a) = true := by
  rcases unitsLe_total (utf16Units a) (utf16Units b) with h | h
  · simp [jsStrLe, h]
  · simp [jsStrLe, h]

/-- Adjacent-pairs comparison of a key list: the key list is emitted in
ascending order for `le`. -/
def chainLeB (le : String → String → Bool) : List String → Bool
  | [] => true
  | [_] => true
  | a :: b :: rest => le a b && chainLeB le (b :: rest)

mutual

/-- Every mapping inside the value, at every nesting level, has its keys
in ascending order for `le` (the order in which `jEmit`, and hence
`stableStringify`, emits them is the field order). -/
def keysAscending (le : String → String → Bool) : JVal → Bool
  | .obj fields => chainLeB le (fields.map (fun p => p.1)) && keysAscendingFields le fields
  | .arr elems => keysAscendingElems le elems
  | _ => true

/-- `keysAscending` over the values of an object's fields. -/
def keysAscendingFields (le : String → String → Bool) : List (String × JVal) → Bool
  | [] => true
  | (_, v) :: rest => keysAscending le v && keysAscendingFields le rest

/-- `keysAscending` over an array's elements. -/
def keysAscendingElems (le : String → String → Bool) : List JVal → Bool
  | [] => true
  | v :: rest => keysAscending le v && keysAscendingElems le rest

end

lemma sortKeysFields_eq_map : ∀ l : List (String × JVal),
    sortKeysFields l = l.map (fun q => (q.1, sortKeysV q.2))
  | [] => rfl
  | (k, v) :: rest => by
    rw [sortKeysFields, sortKeysFields_eq_map rest, List.map_cons]

lemma sortKeysElems_eq_map : ∀ l : List JVal,
    sortKeysElems l = l.map sortKeysV
  | [] => rfl
  | v :: rest => by
    rw [sortKeysElems, sortKeysElems_eq_map rest, List.map_cons]

lemma chainLeB_of_pairwise (le : String → String → Bool) :
    ∀ l : List (String × JVal), l.Pairwise (fun a b => le a.1 b.1 = true) →
      chainLeB le (l.map (fun p => p.1)) = true
  | [], _ => rfl
  | [_], _ => rfl
  | a :: b :: rest, h => by
    rcases List.pairwise_cons.mp h with ⟨hhead, htail⟩
    have hrec := chainLeB_of_pairwise le (b :: rest) htail
    rw [List.map_cons] at hrec
    rw [List.map_cons, List.map_cons, chainLeB, hhead b (by simp), hrec]
    rfl

lemma keysAscendingFields_eq_true (le : String → String → Bool) :
    ∀ l : List (String × JVal), (∀ p ∈ l, keysAscending le p.2 = true) →
      keysAscendingFields le l = true
  | [], _ => rfl
  | (k, v) :: rest, h => by
    rw [keysAscendingFields, h (k, v) (by simp),
      keysAscendingFields_eq_true le rest (fun p hp => h p (by simp [hp]))]
    rfl

lemma keysAscendingElems_eq_true (le : String → String → Bool) :
    ∀ l : List JVal, (∀ v ∈ l, keysAscending le v = true) →
      keysAscendingElems le l = true
  | [], _ => rfl
  | v :: rest, h => by
    rw [keysAscendingElems, h v (by simp),
      keysAscendingElems_eq_true le rest (fun p hp => h p (by simp [hp]))]
    rfl

lemma numIdxLe_trans (a b c : String × JVal) (h1 : numIdxLe a b = true)
    (h2 : numIdxLe b c = true) : numIdxLe a c = true := by
  simp only [numIdxLe, decide_eq_true_eq] at h1 h2 ⊢
  omega

lemma numIdxLe_total (a b : String × JVal) : (numIdxLe a b || numIdxLe b a) = true := by
  simp only [numIdxLe]
  rcases Nat.le_total ((arrayIndexVal a.1).getD 0) ((arrayIndexVal b.1).getD 0) with h | h
  · simp [h]
  · simp [h]

lemma mem_enumOrder (p : String × JVal) (l : List (String × JVal)) :
    p ∈ enumOrder l ↔ p ∈ l := by
  rw [enumOrder, List.mem_append, (List.mergeSort_perm _ numIdxLe).mem_iff,
    List.mem_filter, List.mem_filter]
  constructor
  · rintro (⟨h, _⟩ | ⟨h, _⟩) <;> exact h
  · intro h
    cases h2 : arrayIndexVal p.1 with
    | none => exact Or.inr ⟨h, by simp [h2]⟩
    | some m => exact Or.inl ⟨h, by simp [h2]⟩

/-- Reordering a key-sorted field list into own-property enumeration
order yields a list ascending for the composite key order `enumKeyLe`. -/
lemma pairwise_enumOrder (l : List (String × JVal))
    (h : l.Pairwise (fun a b => jsStrLe a.1 b.1 = true)) :
    (enumOrder l).Pairwise (fun a b => enumKeyLe a.1 b.1 = true) := by
  rw [enumOrder, List.pairwise_append]
  have hmemIdx : ∀ p ∈ (l.filter (fun p => (arrayIndexVal p.1).isSome)).mergeSort numIdxLe,
      (arrayIndexVal p.1).isSome = true := by
    intro p hp
    exact (List.mem_filter.mp ((List.mergeSort_perm _ numIdxLe).mem_iff.mp hp)).2
  have hmemRest : ∀ p ∈ l.filter (fun p => (arrayIndexVal p.1).isNone),
      arrayIndexVal p.1 = none := by
    intro p hp
    exact Option.isNone_iff_eq_none.mp (List.mem_filter.mp hp).2
  refine ⟨?_, ?_, ?_⟩
  · have hs : ((l.filter (fun p => (arrayIndexVal p.1).isSome)).mergeSort numIdxLe).Pairwise
        (fun a b => numIdxLe a b = true) :=
      List.sorted_mergeSort numIdxLe_trans numIdxLe_total _
    refine hs.imp_of_mem ?_
    intro a b ha hb hab
    rcases Option.isSome_iff_exists.mp (hmemIdx a ha) with ⟨m, hm⟩
    rcases Option.isSome_iff_exists.mp (hmemIdx b hb) with ⟨n, hn⟩
    simp only [numIdxLe, hm, hn, Option.getD_some, decide_eq_true_eq] at hab
    simp only [enumKeyLe, hm, hn, decide_eq_true_eq]
    exact hab
  · refine (List.Pairwise.filter _ h).imp_of_mem ?_
    intro a b ha hb hab
    simp only [enumKeyLe, hmemRest a ha, hmemRest b hb]
    exact hab
  · intro a ha b hb
    rcases Option.isSome_iff_exists.mp (hmemIdx a ha) with ⟨m, hm⟩
    simp only [enumKeyLe, hm, hmemRest b hb]

/-- C4 (amended): the pre-hash serialization emits the keys of every
mapping, at every nesting level, in `JSON.stringify`'s own-property
enumeration order of the replacer's key-sorted object: array-index-like
keys (canonical base-10 numerals below `2^32 - 1`) first, in ascending
numeric order, followed by all remaining keys in ascending lexicographic
order of their **UTF-16 code-unit** sequences (the JS default sort
order).  This is ascending UTF-8 byte order neither on numeral-like
keys (`"9"` is emitted before `"10"`) nor in general on the others
(UTF-16 order differs from UTF-8 byte order outside the BMP). -/
theorem c4_key_order (v : JVal) : keysAscending enumKeyLe (sortKeysV v) = true := by
  suffices H : ∀ (n : Nat) (v : JVal), sizeOf v ≤ n →
      keysAscending enumKeyLe (sortKeysV v) = true from H (sizeOf v) v le_rfl
  intro n
  induction n with
  | zero =>
    intro v hv
    cases v <;> simp at hv
  | succ n ih =>
    intro v hv
    cases v with
    | undef => rfl
    | null => rfl
    | bool b => rfl
    | num m => rfl
    | str s => rfl
    | arr elems =>
      rw [sortKeysV, sortKeysElems_eq_map, keysAscending]
      refine keysAscendingElems_eq_true _ _ ?_
      intro w hw
      rcases List.mem_map.mp hw with ⟨w0, hw0, rfl⟩
      refine ih w0 ?_
      have h1 := List.sizeOf_lt_of_mem hw0
      simp only [JVal.arr.sizeOf_spec] at hv
      omega
    | obj fields =>
      rw [sortKeysV, keysAscending, Bool.and_eq_true]
      refine ⟨?_, ?_⟩
      · refine chainLeB_of_pairwise _ _ ?_
        refine pairwise_enumOrder _ ?_
        exact List.sorted_mergeSort
          (fun a b c hab hbc => jsStrLe_trans a.1 b.1 c.1 hab hbc)
          (fun a b => jsStrLe_total a.1 b.1) (sortKeysFields fields)
      · refine keysAscendingFields_eq_true _ _ ?_
        intro p hp
        have hp1 : p ∈ (sortKeysFields fields).mergeSort (fun a b => jsStrLe a.1 b.1) :=
          (mem_enumOrder p _).mp hp
        have hp2 : p ∈ sortKeysFields fields :=
          (List.mergeSort_perm (sortKeysFields fields) _).mem_iff.mp hp1
        rw [sortKeysFields_eq_map] at hp2
        rcases List.mem_map.mp hp2 with ⟨q, hq, rfl⟩
        refine ih q.2 ?_
        have h1 := List.sizeOf_lt_of_mem hq
        have h2 : sizeOf q.2 ≤ sizeOf q := by
          obtain ⟨q1, q2⟩ := q
          simp only [Prod.mk.sizeOf_spec]
          omega
        simp only [JVal.obj.sizeOf_spec] at hv
        omega

/-- The two keys of the C4 counterexample: U+FFFF (one UTF-16 code unit,
three UTF-8 bytes) and U+1F600 (a surrogate pair, four UTF-8 bytes). -/
def c4Key1 : String := String.mk [Char.ofNat 0xFFFF]

/-- See `c4Key1`. -/
def c4Key2 : String := String.mk [Char.ofNat 0x1F600]

/-- A two-key object on which UTF-16 and UTF-8 orderings disagree. -/
def c4Obj : JVal := .obj [(c4Key1, .num 0), (c4Key2, .num 1)]

/-- A two-key object with array-index-like keys, on which the emitted
order (ascending numeric) is the reverse of both UTF-8 byte order and
UTF-16 code-unit order. -/
def c4NumObj : JVal := .obj [("10", .num 0), ("9", .num 1)]

/-- Counterexample to C4 as stated (keys in ascending UTF-8 byte order),
in two independent ways.  (1) On non-numeric keys `stableStringify`
emits `c4Key2` (U+1F600) before `c4Key1` (U+FFFF) because JS sorts by
UTF-16 code units, yet in UTF-8 byte order `c4Key2` is strictly greater.
(2) On array-index-like keys `JSON.stringify` enumerates the replacer's
returned object numerically: `"9"` is emitted before `"10"`, the reverse
of both the UTF-8 byte order and the UTF-16 code-unit order of these
keys. -/
theorem c4_counterexample :
    (sortKeysV c4Obj = .obj [(c4Key2, .num 1), (c4Key1, .num 0)]
      ∧ utf8StrLe c4Key2 c4Key1 = false
      ∧ c4Key1 ≠ c4Key2
      ∧ keysAscending utf8StrLe (sortKeysV c4Obj) = false)
  ∧ (sortKeysV c4NumObj = .obj [("9", .num 1), ("10", .num 0)]
      ∧ utf8StrLe "9" "10" = false
      ∧ jsStrLe "9" "10" = false
      ∧ keysAscending utf8StrLe (sortKeysV c4NumObj) = false) := by
  have h12 : jsStrLe c4Key1 c4Key2 = false := by decide
  have hidx1 : arrayIndexVal c4Key1 = none := by decide
  have hidx2 : arrayIndexVal c4Key2 = none := by decide
  have hsort : sortKeysV c4Obj = .obj [(c4Key2, .num 1), (c4Key1, .num 0)] := by
    rw [c4Obj, sortKeysV, sortKeysFields, sortKeysFields, sortKeysFields]
    simp [List.mergeSort, sortKeysV, h12, enumOrder, hidx1, hidx2]
  have hjs : jsStrLe "10" "9" = true := by decide
  have hidx9 : arrayIndexVal "9" = some 9 := by decide
  have hidx10 : arrayIndexVal "10" = some 10 := by decide
  have hsortNum : sortKeysV c4NumObj = .obj [("9", .num 1), ("10", .num 0)] := by
    rw [c4NumObj, sortKeysV, sortKeysFields, sortKeysFields, sortKeysFields]
    simp [List.mergeSort, sortKeysV, hjs, enumOrder, numIdxLe, hidx9, hidx10]
  refine ⟨⟨hsort, by decide, by decide, ?_⟩, ⟨hsortNum, by decide, by decide, ?_⟩⟩
  · rw [hsort, keysAscending]
    have h21 : utf8StrLe c4Key2 c4Key1 = false := by decide
    simp [chainLeB, h21]
  · rw [hsortNum, keysAscending]
    have h910 : utf8StrLe "9" "10" = false := by decide
    simp [chainLeB, h910]


/-! ### C2: input-set semantics of `hashDerivationModulo` -/

lemma unitsLe_antisymm : ∀ x y : List Nat, unitsLe x y = true → unitsLe y x = true →
    x = y
  | [], [], _, _ => rfl
  | [], _ :: _, _, h2 => by simp [unitsLe] at h2
  | _ :: _, [], h1, _ => by simp [unitsLe] at h1
  | a :: as, b :: bs, h1, h2 => by
    simp only [unitsLe] at h1 h2
    split_ifs at h1 h2
    all_goals first
      | exact absurd h1 (by decide)
      | exact absurd h2 (by decide)
      | (exfalso; omega)
      | (have hab : a = b := by omega
         subst hab
         rw [unitsLe_antisymm as bs h1 h2])

lemma charUtf16_bmp (c : Char) (h : c.toNat < 0x10000) : charUtf16 c = [c.toNat] := by
  rw [charUtf16, if_pos h]

lemma flatMap_charUtf16_bmp : ∀ l : List Char, (∀ c ∈ l, c.toNat < 0x10000) →
    l.flatMap charUtf16 = l.map Char.toNat
  | [], _ => rfl
  | c :: l, h => by
    rw [List.flatMap_cons, List.map_cons, charUtf16_bmp c (h c (by simp)),
      flatMap_charUtf16_bmp l (fun d hd => h d (by simp [hd]))]
    rfl

lemma utf16Units_bmp (s : String) (h : ∀ c ∈ s.data, c.toNat < 0x10000) :
    utf16Units s = s.data.map Char.toNat := by
  rw [utf16Units]
  exact flatMap_charUtf16_bmp s.data h

lemma char_toNat_injective : Function.Injective Char.toNat := by
  intro c d h
  exact Char.ext (UInt32.ext h)

lemma jsStrLe_antisymm_bmp (a b : String)
    (ha : ∀ c ∈ a.data, c.toNat < 0x10000) (hb : ∀ c ∈ b.data, c.toNat < 0x10000)
    (h1 : jsStrLe a b = true) (h2 : jsStrLe b a = true) : a = b := by
  rw [jsStrLe] at h1 h2
  have hu := unitsLe_antisymm _ _ h1 h2
  rw [utf16Units_bmp a ha, utf16Units_bmp b hb] at hu
  exact String.ext (List.map_injective_iff.mpr char_toNat_injective hu)

lemma hexDigit_bmp (n : Nat) (h : n < 16) : (hexDigit n).toNat < 0x10000 := by
  interval_cases n <;> decide

lemma hexEncode_bmp (bs : List Nat) : ∀ c ∈ (hexEncode bs).data, c.toNat < 0x10000 := by
  intro c hc
  rw [hexEncode] at hc
  have hc2 : c ∈ bs.flatMap (fun b => [hexDigit (b / 16 % 16), hexDigit (b % 16)]) := hc
  rcases List.mem_flatMap.mp hc2 with ⟨b, _, hcb⟩
  rcases List.mem_cons.mp hcb with h | h
  · rw [h]
    exact hexDigit_bmp _ (Nat.mod_lt _ (by norm_num))
  · rcases List.mem_cons.mp h with h | h
    · rw [h]
      exact hexDigit_bmp _ (Nat.mod_lt _ (by norm_num))
    · cases h

lemma hashDerivationModulo_bmp (sha : List Nat → List Nat) (sys0 : String)
    (d : Derivation) :
    ∀ c ∈ (hashDerivationModulo sha sys0 d).data, c.toNat < 0x10000 := by
  cases d with
  | mk n sys b a e i s oh oha ohm =>
    rw [hashDerivationModulo]
    split
    · exact hexEncode_bmp _
    · exact hexEncode_bmp _

/-- The constant record value `["out"]` used for every input key. -/
def outV : JVal := .arr [.str "out"]

lemma sortKeysV_outV : sortKeysV outV = outV := by
  rw [outV, sortKeysV, sortKeysElems, sortKeysElems]
  rfl

lemma sortKeysFields_of_valuesV : ∀ o : List (String × JVal),
    (∀ p ∈ o, p.2 = outV) → sortKeysFields o = o
  | [], _ => rfl
  | (k, v) :: rest, h => by
    have hv : v = outV := h (k, v) (by simp)
    rw [sortKeysFields, hv, sortKeysV_outV,
      sortKeysFields_of_valuesV rest (fun p hp => h p (by simp [hp]))]

lemma objSet_keys_mem {β : Type} (o : List (String × β)) (k : String) (v : β)
    (m : String) :
    (m ∈ (objSet o k v).map (fun p => p.1)) ↔ (m ∈ o.map (fun p => p.1) ∨ m = k) := by
  rw [objSet]
  split
  · rename_i hany
    rcases List.any_eq_true.mp hany with ⟨q, hq, hq2⟩
    have hkeys : (o.map (fun p => if p.1 = k then (k, v) else p)).map (fun p => p.1)
        = o.map (fun p => p.1) := by
      rw [List.map_map]
      refine List.map_congr_left ?_
      intro p _
      by_cases hp : p.1 = k
      · simp [hp]
      · simp [hp]
    rw [hkeys]
    constructor
    · exact Or.inl
    · rintro (h | rfl)
      · exact h
      · have : decide (q.1 = m) = true := hq2
        have hqm : q.1 = m := of_decide_eq_true this
        exact hqm ▸ List.mem_map.mpr ⟨q, hq, rfl⟩
  · rw [List.map_append]
    simp

lemma objSet_keys_nodup {β : Type} (o : List (String × β)) (k : String) (v : β)
    (h : (o.map (fun p => p.1)).Nodup) : ((objSet o k v).map (fun p => p.1)).Nodup := by
  rw [objSet]
  split
  · rename_i hany
    have hkeys : (o.map (fun p => if p.1 = k then (k, v) else p)).map (fun p => p.1)
        = o.map (fun p => p.1) := by
      rw [List.map_map]
      refine List.map_congr_left ?_
      intro p _
      by_cases hp : p.1 = k
      · simp [hp]
      · simp [hp]
    rw [hkeys]
    exact h
  · rename_i hany
    rw [List.map_append]
    refine List.Nodup.append h (by simp) ?_
    intro m hm hm2
    simp only [List.map_cons, List.map_nil, List.mem_singleton] at hm2
    rcases List.mem_map.mp hm with ⟨q, hq, hq2⟩
    exact absurd (List.any_eq_true.mpr ⟨q, hq, decide_eq_true (hq2.trans hm2)⟩) hany

lemma objSet_valuesV (o : List (String × JVal)) (k : String)
    (h : ∀ p ∈ o, p.2 = outV) : ∀ p ∈ objSet o k outV, p.2 = outV := by
  intro p hp
  rw [objSet] at hp
  split at hp
  · rcases List.mem_map.mp hp with ⟨q, hq, hq2⟩
    by_cases hqk : q.1 = k
    · rw [if_pos hqk] at hq2
      rw [← hq2]
    · rw [if_neg hqk] at hq2
      rw [← hq2]
      exact h q hq
  · rcases List.mem_append.mp hp with h2 | h2
    · exact h p h2
    · simp only [List.mem_singleton] at h2
      rw [h2]

lemma hashInputs_keys_mem (sha : List Nat → List Nat) (sys0 : String) :
    ∀ (l : List Derivation) (acc : List (String × JVal)) (m : String),
      (m ∈ (hashInputs sha sys0 l acc).map (fun p => p.1)) ↔
        (m ∈ acc.map (fun p => p.1) ∨ ∃ d ∈ l, m = hashDerivationModulo sha sys0 d)
  | [], acc, m => by
    rw [hashInputs]
    simp
  | d :: ds, acc, m => by
    rw [hashInputs]
    rw [hashInputs_keys_mem sha sys0 ds _ m, objSet_keys_mem]
    constructor
    · rintro ((h | h) | ⟨d2, hd2, rfl⟩)
      · exact Or.inl h
      · exact Or.inr ⟨d, by simp, h⟩
      · exact Or.inr ⟨d2, by simp [hd2], rfl⟩
    · rintro (h | ⟨d2, hd2, rfl⟩)
      · exact Or.inl (Or.inl h)
      · rcases List.mem_cons.mp hd2 with rfl | hd2
        · exact Or.inl (Or.inr rfl)
        · exact Or.inr ⟨d2, hd2, rfl⟩

lemma hashInputs_keys_nodup (sha : List Nat → List Nat) (sys0 : String) :
    ∀ (l : List Derivation) (acc : List (String × JVal)),
      (acc.map (fun p => p.1)).Nodup → ((hashInputs sha sys0 l acc).map (fun p => p.1)).Nodup
  | [], acc, h => by
    rw [hashInputs]
    exact h
  | d :: ds, acc, h => by
    rw [hashInputs]
    exact hashInputs_keys_nodup sha sys0 ds _ (objSet_keys_nodup _ _ _ h)

lemma hashInputs_valuesV (sha : List Nat → List Nat) (sys0 : String) :
    ∀ (l : List Derivation) (acc : List (String × JVal)),
      (∀ p ∈ acc, p.2 = outV) → ∀ p ∈ hashInputs sha sys0 l acc, p.2 = outV
  | [], acc, h => by
    rw [hashInputs]
    exact h
  | d :: ds, acc, h => by
    rw [hashInputs]
    exact hashInputs_valuesV sha sys0 ds _ (objSet_valuesV _ _ h)


lemma sorted_pairs_eq : ∀ l1 l2 : List (String × JVal),
    l1.Pairwise (fun p q => jsStrLe p.1 q.1 = true) →
    l2.Pairwise (fun p q => jsStrLe p.1 q.1 = true) →
    (l1.map (fun p => p.1)).Nodup → (l2.map (fun p => p.1)).Nodup →
    (∀ m, m ∈ l1.map (fun p => p.1) ↔ m ∈ l2.map (fun p => p.1)) →
    (∀ p ∈ l1, p.2 = outV) → (∀ p ∈ l2, p.2 = outV) →
    (∀ p ∈ l1, ∀ c ∈ p.1.data, c.toNat < 0x10000) →
    (∀ p ∈ l2, ∀ c ∈ p.1.data, c.toNat < 0x10000) →
    l1 = l2
  | [], [], _, _, _, _, _, _, _, _, _ => rfl
  | [], q :: t2, _, _, _, _, hmem, _, _, _, _ => by
    have := (hmem q.1).mpr (by simp)
    simp at this
  | p :: t1, [], _, _, _, _, hmem, _, _, _, _ => by
    have := (hmem p.1).mp (by simp)
    simp at this
  | p :: t1, q :: t2, hs1, hs2, hn1, hn2, hmem, hv1, hv2, hb1, hb2 => by
    rcases List.pairwise_cons.mp hs1 with ⟨hp1, hs1t⟩
    rcases List.pairwise_cons.mp hs2 with ⟨hp2, hs2t⟩
    have hp_in := (hmem p.1).mp (by simp)
    have hq_in := (hmem q.1).mpr (by simp)
    simp only [List.map_cons, List.mem_cons] at hp_in hq_in
    have hpq : p.1 = q.1 := by
      rcases hp_in with h | h
      · exact h
      · rcases hq_in with h2 | h2
        · exact h2.symm
        · rcases List.mem_map.mp h with ⟨r, hr, hr2⟩
          rcases List.mem_map.mp h2 with ⟨r2, hr22, hr23⟩
          have hqp : jsStrLe q.1 p.1 = true := hr2 ▸ hp2 r hr
          have hpq2 : jsStrLe p.1 q.1 = true := hr23 ▸ hp1 r2 hr22
          exact jsStrLe_antisymm_bmp p.1 q.1 (hb1 p (by simp)) (hb2 q (by simp))
            hpq2 hqp
    have hpq_full : p = q := by
      obtain ⟨pk, pv⟩ := p
      obtain ⟨qk, qv⟩ := q
      have h1 : pv = outV := hv1 (pk, pv) (by simp)
      have h2 : qv = outV := hv2 (qk, qv) (by simp)
      simp only at hpq
      rw [hpq, h1, h2]
    subst hpq_full
    have htail : ∀ m, m ∈ t1.map (fun p => p.1) ↔ m ∈ t2.map (fun p => p.1) := by
      intro m
      constructor
      · intro hm
        have := (hmem m).mp (by simp [hm])
        simp only [List.map_cons, List.mem_cons] at this
        rcases this with rfl | h
        · exfalso
          simp only [List.map_cons, List.nodup_cons] at hn1
          exact hn1.1 hm
        · exact h
      · intro hm
        have := (hmem m).mpr (by simp [hm])
        simp only [List.map_cons, List.mem_cons] at this
        rcases this with rfl | h
        · exfalso
          simp only [List.map_cons, List.nodup_cons] at hn2
          exact hn2.1 hm
        · exact h
    rw [sorted_pairs_eq t1 t2 hs1t hs2t
      (by simp only [List.map_cons, List.nodup_cons] at hn1; exact hn1.2)
      (by simp only [List.map_cons, List.nodup_cons] at hn2; exact hn2.2)
      htail
      (fun r hr => hv1 r (by simp [hr])) (fun r hr => hv2 r (by simp [hr]))
      (fun r hr => hb1 r (by simp [hr])) (fun r hr => hb2 r (by simp [hr]))]

lemma hashInputs_sorted_eq (sha : List Nat → List Nat) (sys0 : String)
    (l1 l2 : List Derivation) (hmem : ∀ x, x ∈ l1 ↔ x ∈ l2) :
    sortKeysV (.obj (hashInputs sha sys0 l1 []))
      = sortKeysV (.obj (hashInputs sha sys0 l2 [])) := by
  rw [sortKeysV, sortKeysV]
  have hv1 := hashInputs_valuesV sha sys0 l1 [] (by simp)
  have hv2 := hashInputs_valuesV sha sys0 l2 [] (by simp)
  rw [sortKeysFields_of_valuesV _ hv1, sortKeysFields_of_valuesV _ hv2]
  congr 1
  congr 1
  have hperm1 := List.mergeSort_perm (hashInputs sha sys0 l1 [])
    (fun a b => jsStrLe a.1 b.1)
  have hperm2 := List.mergeSort_perm (hashInputs sha sys0 l2 [])
    (fun a b => jsStrLe a.1 b.1)
  have hbmp1 : ∀ p ∈ hashInputs sha sys0 l1 [], ∀ c ∈ p.1.data, c.toNat < 0x10000 := by
    intro p hp
    have hk : p.1 ∈ (hashInputs sha sys0 l1 []).map (fun p => p.1) :=
      List.mem_map.mpr ⟨p, hp, rfl⟩
    rcases (hashInputs_keys_mem sha sys0 l1 [] p.1).mp hk with h | ⟨d, _, hd⟩
    · simp at h
    · rw [hd]
      exact hashDerivationModulo_bmp sha sys0 d
  have hbmp2 : ∀ p ∈ hashInputs sha sys0 l2 [], ∀ c ∈ p.1.data, c.toNat < 0x10000 := by
    intro p hp
    have hk : p.1 ∈ (hashInputs sha sys0 l2 []).map (fun p => p.1) :=
      List.mem_map.mpr ⟨p, hp, rfl⟩
    rcases (hashInputs_keys_mem sha sys0 l2 [] p.1).mp hk with h | ⟨d, _, hd⟩
    · simp at h
    · rw [hd]
      exact hashDerivationModulo_bmp sha sys0 d
  refine sorted_pairs_eq _ _
    (List.sorted_mergeSort (fun a b c hab hbc => jsStrLe_trans a.1 b.1 c.1 hab hbc)
      (fun a b => jsStrLe_total a.1 b.1) _)
    (List.sorted_mergeSort (fun a b c hab hbc => jsStrLe_trans a.1 b.1 c.1 hab hbc)
      (fun a b => jsStrLe_total a.1 b.1) _)
    ((hperm1.map (fun p => p.1)).nodup_iff.mpr
      (hashInputs_keys_nodup sha sys0 l1 [] (by simp)))
    ((hperm2.map (fun p => p.1)).nodup_iff.mpr
      (hashInputs_keys_nodup sha sys0 l2 [] (by simp)))
    ?_ ?_ ?_ ?_ ?_
  · intro m
    rw [(hperm1.map (fun p => p.1)).mem_iff, (hperm2.map (fun p => p.1)).mem_iff]
    rw [hashInputs_keys_mem, hashInputs_keys_mem]
    constructor
    · rintro (h | ⟨d, hd, rfl⟩)
      · simp at h
      · exact Or.inr ⟨d, (hmem d).mp hd, rfl⟩
    · rintro (h | ⟨d, hd, rfl⟩)
      · simp at h
      · exact Or.inr ⟨d, (hmem d).mpr hd, rfl⟩
  · intro p hp
    exact hv1 p (hperm1.mem_iff.mp hp)
  · intro p hp
    exact hv2 p (hperm2.mem_iff.mp hp)
  · intro p hp
    exact hbmp1 p (hperm1.mem_iff.mp hp)
  · intro p hp
    exact hbmp2 p (hperm2.mem_iff.mp hp)

/-- C2: `hashDerivationModulo` has input-*set* semantics: any reordering
or duplication of `d.inputs` (more generally, any change that preserves
the set of inputs) yields exactly the same hash — the input hashes are
collected as keys of an object, duplicates collapse on the shared key,
and `stableStringify` sorts the keys. -/
theorem c2_input_set_invariance (sha : List Nat → List Nat) (sys0 : String)
    (n : String) (sys : Option String) (b : String) (a : Option (List String))
    (e : Option (List (String × String))) (s : Option Source)
    (oh oha ohm : Option String) :
    (∀ l1 l2 : List Derivation, l1.Perm l2 →
      hashDerivationModulo sha sys0 (.mk n sys b a e (some l1) s oh oha ohm)
        = hashDerivationModulo sha sys0 (.mk n sys b a e (some l2) s oh oha ohm))
  ∧ (∀ l1 l2 : List Derivation, (∀ x, x ∈ l1 ↔ x ∈ l2) →
      hashDerivationModulo sha sys0 (.mk n sys b a e (some l1) s oh oha ohm)
        = hashDerivationModulo sha sys0 (.mk n sys b a e (some l2) s oh oha ohm)) := by
  have main : ∀ l1 l2 : List Derivation, (∀ x, x ∈ l1 ↔ x ∈ l2) →
      hashDerivationModulo sha sys0 (.mk n sys b a e (some l1) s oh oha ohm)
        = hashDerivationModulo sha sys0 (.mk n sys b a e (some l2) s oh oha ohm) := by
    intro l1 l2 hmem
    by_cases hoh : truthy oh = true
    · rw [hashDerivationModulo_fixed sha sys0 n sys b a e (some l1) s oh oha ohm hoh,
        hashDerivationModulo_fixed sha sys0 n sys b a e (some l2) s oh oha ohm hoh]
    · rw [hashDerivationModulo, hashDerivationModulo]
      rw [if_neg hoh, if_neg hoh]
      dsimp only
      rw [stableStringify, stableStringify]
      simp only [Option.getD_some]
      suffices h : sortKeysV (.obj
          [("name", .str n), ("system", .str (sys.getD sys0)), ("builder", .str b),
           ("args", .arr ((a.getD []).map .str)),
           ("env", .obj ((e.getD []).map (fun p => (p.1, .str p.2)))),
           ("inputs", .obj (hashInputs sha sys0 l1 [])),
           ("outputs", .obj [("out", .str "")]),
           ("src", srcHashField s)])
        = sortKeysV (.obj
          [("name", .str n), ("system", .str (sys.getD sys0)), ("builder", .str b),
           ("args", .arr ((a.getD []).map .str)),
           ("env", .obj ((e.getD []).map (fun p => (p.1, .str p.2)))),
           ("inputs", .obj (hashInputs sha sys0 l2 [])),
           ("outputs", .obj [("out", .str "")]),
           ("src", srcHashField s)]) by rw [h]
      rw [sortKeysV, sortKeysV]
      simp only [sortKeysFields]
      rw [hashInputs_sorted_eq sha sys0 l1 l2 hmem]
  exact ⟨fun l1 l2 hp => main l1 l2 (fun x => hp.mem_iff), main⟩

/-- A concrete input derivation for the C2 witness. -/
def c2Dep : Derivation :=
  .mk "dep" none "/bin/sh" none none none none (some "bb") (some "sha256") none

/-- Witness for C2: duplicating the single input leaves the hash
unchanged (with a stub SHA-256). -/
theorem c2_input_set_invariance_witness :
    hashDerivationModulo (fun _ => []) "x86_64-linux"
      (.mk "pkg" none "/bin/sh" none none (some [c2Dep, c2Dep]) none none none none)
      = hashDerivationModulo (fun _ => []) "x86_64-linux"
      (.mk "pkg" none "/bin/sh" none none (some [c2Dep]) none none none none) :=
  (c2_input_set_invariance (fun _ => []) "x86_64-linux" "pkg" none "/bin/sh"
    none none none none none none).2 [c2Dep, c2Dep] [c2Dep] (fun x => by simp)


/-! ### C3: `topoSort` -/

lemma reaches_closed (g : List (List Nat)) (l : List Nat)
    (hord : TopoOrdered g l) :
    ∀ u x, u ∈ l → Reaches g u x → x ∈ l := by
  intro u x hu hr
  induction hr with
  | refl v => exact hu
  | step hedge _ ih => exact ih ((hord _ hu _ hedge).1)

lemma path_length_le (n : Nat) : ∀ path : List Nat, path.Nodup →
    (∀ x ∈ path, x < n) → path.length ≤ n := by
  intro path hnd hlt
  have h1 : path.toFinset.card = path.length := List.toFinset_card_of_nodup hnd
  have h2 : path.toFinset ⊆ Finset.range n := by
    intro x hx
    rw [Finset.mem_range]
    exact hlt x (List.mem_toFinset.mp hx)
  have := Finset.card_le_card h2
  rw [h1, Finset.card_range] at this
  exact this

lemma indexOf_append_left {a : Nat} : ∀ (l t : List Nat), a ∈ l →
    (l ++ t).indexOf a = l.indexOf a
  | [], _, h => by cases h
  | b :: l, t, h => by
    by_cases hab : b = a
    · subst hab
      simp [List.indexOf_cons_self]
    · rcases List.mem_cons.mp h with h2 | h2
      · exact absurd h2.symm hab
      · rw [List.cons_append]
        rw [List.indexOf_cons_ne _ (by simpa using hab),
          List.indexOf_cons_ne _ (by simpa using hab),
          indexOf_append_left l t h2]

lemma indexOf_concat_self {v : Nat} : ∀ l : List Nat, v ∉ l →
    (l ++ [v]).indexOf v = l.length
  | [], _ => by simp
  | b :: l, h => by
    have hvb : ¬(b = v) := fun hc => h (by simp [hc])
    rw [List.cons_append, List.indexOf_cons_ne _ (by simpa using hvb),
      indexOf_concat_self l (fun hc => h (by simp [hc]))]
    rfl

lemma topoOrdered_concat (g : List (List Nat)) (l : List Nat) (v : Nat)
    (hord : TopoOrdered g l) (hv : v ∉ l)
    (hin : ∀ u ∈ inputsOf g v, u ∈ l) : TopoOrdered g (l ++ [v]) := by
  intro u hu w hw
  rcases List.mem_append.mp hu with hu2 | hu2
  · rcases hord u hu2 w hw with ⟨hw1, hw2⟩
    refine ⟨List.mem_append.mpr (Or.inl hw1), ?_⟩
    rw [indexOf_append_left l [v] hw1, indexOf_append_left l [v] hu2]
    exact hw2
  · simp only [List.mem_singleton] at hu2
    subst hu2
    have hwl : w ∈ l := hin w hw
    refine ⟨List.mem_append.mpr (Or.inl hwl), ?_⟩
    rw [indexOf_append_left l [u] hwl, indexOf_concat_self l hv]
    exact List.indexOf_lt_length.mpr hwl

lemma chain_last_lt (g : List (List Nat)) (l : List Nat)
    (hord : TopoOrdered g l) :
    ∀ (rest : List Nat) (a b : Nat),
      (a :: rest).Chain' (fun u w => w ∈ inputsOf g u) →
      (∀ x ∈ a :: rest, x ∈ l) → rest ≠ [] →
      (a :: rest).getLast? = some b →
      l.indexOf b < l.indexOf a
  | [], a, b, _, _, hne, _ => absurd rfl hne
  | d :: rest, a, b, hchain, hmem, _, hlast => by
    have hedge : d ∈ inputsOf g a := (List.chain'_cons.mp hchain).1
    have hda : l.indexOf d < l.indexOf a :=
      (hord a (hmem a (by simp)) d hedge).2
    cases rest with
    | nil =>
      simp only [List.getLast?_cons_cons, List.getLast?_singleton,
        Option.some.injEq] at hlast
      rw [← hlast]
      exact hda
    | cons e rest2 =>
      have hrec := chain_last_lt g l hord (e :: rest2) d b
        (List.chain'_cons.mp hchain).2
        (fun x hx => hmem x (by simp [List.mem_cons] at hx ⊢; tauto))
        (by simp)
        (by simpa using hlast)
      omega

lemma no_cycle_of_topoOrdered (g : List (List Nat)) (l : List Nat)
    (hord : TopoOrdered g l) (c : List Nat) (hc : IsCycle g c)
    (hmem : ∀ x ∈ c, x ∈ l) : False := by
  obtain ⟨hlen, hchain, hheadlast⟩ := hc
  cases c with
  | nil => simp at hlen
  | cons a rest =>
    cases rest with
    | nil => simp at hlen
    | cons d rest2 =>
      have hhead : (a :: d :: rest2).head? = some a := rfl
      rw [hhead] at hheadlast
      have := chain_last_lt g l hord (d :: rest2) a a hchain hmem (by simp)
        hheadlast.symm
      omega


lemma inputs_lt (g : List (List Nat)) (hwf : WfGraph g) (v : Nat) :
    ∀ u ∈ inputsOf g v, u < g.length := by
  intro u hu
  rw [inputsOf] at hu
  by_cases hv : v < g.length
  · rw [List.getD_eq_getElem _ _ hv] at hu
    exact hwf _ (List.getElem_mem hv) u hu
  · rw [List.getD_eq_default _ _ (by omega)] at hu
    cases hu

/-- The state invariant of the traversal: `visited` and `result` are the
same list, without duplicates, and topologically ordered. -/
def StInv (g : List (List Nat)) (st : TpState) : Prop :=
  st.visited = st.result ∧ st.result.Nodup ∧ TopoOrdered g st.result

/-- Precondition of `visit`. -/
def VisitPre (g : List (List Nat)) (fuel : Nat) (path : List Nat) (v : Nat)
    (st : TpState) : Prop :=
  StInv g st ∧ path.Nodup ∧ (∀ x ∈ path, x < g.length)
  ∧ (∀ x ∈ path, x ∉ st.result) ∧ v < g.length
  ∧ g.length + 1 ≤ fuel + path.length
  ∧ (path ++ [v]).Chain' (fun a b => b ∈ inputsOf g a)

/-- Postcondition of `visit`. -/
def VisitPost (g : List (List Nat)) (path : List Nat) (v : Nat) (st : TpState) :
    Except TopoErr TpState → Prop
  | .ok st1 =>
      StInv g st1 ∧ (∀ x ∈ st.result, x ∈ st1.result) ∧ v ∈ st1.result
      ∧ (∀ x ∈ st1.result, x ∈ st.result ∨ Reaches g v x)
      ∧ (∀ x, Reaches g v x → x ∈ st1.result)
      ∧ (∀ x ∈ path, x ∉ st1.result)
  | .error e =>
      ∃ c, e = .cycle c ∧ IsCycle g c ∧ ∀ x ∈ c, x ∈ path ∨ Reaches g v x

/-- Precondition of `visitList`. -/
def VisitListPre (g : List (List Nat)) (fuel : Nat) (path : List Nat)
    (vs : List Nat) (st : TpState) : Prop :=
  StInv g st ∧ path.Nodup ∧ (∀ x ∈ path, x < g.length)
  ∧ (∀ x ∈ path, x ∉ st.result) ∧ (∀ v ∈ vs, v < g.length)
  ∧ g.length + 1 ≤ fuel + path.length
  ∧ (∀ v ∈ vs, (path ++ [v]).Chain' (fun a b => b ∈ inputsOf g a))

/-- Postcondition of `visitList`. -/
def VisitListPost (g : List (List Nat)) (path : List Nat) (vs : List Nat)
    (st : TpState) : Except TopoErr TpState → Prop
  | .ok st1 =>
      StInv g st1 ∧ (∀ x ∈ st.result, x ∈ st1.result) ∧ (∀ v ∈ vs, v ∈ st1.result)
      ∧ (∀ x ∈ st1.result, x ∈ st.result ∨ ∃ v ∈ vs, Reaches g v x)
      ∧ (∀ x v, v ∈ vs → Reaches g v x → x ∈ st1.result)
      ∧ (∀ x ∈ path, x ∉ st1.result)
  | .error e =>
      ∃ c, e = .cycle c ∧ IsCycle g c ∧ ∀ x ∈ c, x ∈ path ∨ ∃ v ∈ vs, Reaches g v x

lemma topo_spec (g : List (List Nat)) (hwf : WfGraph g) : ∀ fuel : Nat,
    (∀ path v st, VisitPre g fuel path v st →
      VisitPost g path v st (visit g fuel path v st))
  ∧ (∀ path vs st, VisitListPre g fuel path vs st →
      VisitListPost g path vs st (visitList g fuel path vs st)) := by
  intro fuel
  induction fuel with
  | zero =>
    constructor
    · rintro path v st ⟨_, hnd, hlt, _, _, hfuel, _⟩
      exfalso
      have := path_length_le g.length path hnd hlt
      omega
    · rintro path vs st ⟨hinv, hnd, hlt, hdisj, hvlt, hfuel, hchain⟩
      cases vs with
      | nil =>
        rw [visitList]
        exact ⟨hinv, fun x hx => hx, by simp, fun x hx => Or.inl hx,
          by simp, hdisj⟩
      | cons u us =>
        exfalso
        have := path_length_le g.length path hnd hlt
        omega
  | succ fuel ih =>
    obtain ⟨ihv, ihl⟩ := ih
    have hvisit : ∀ path v st, VisitPre g (fuel + 1) path v st →
        VisitPost g path v st (visit g (fuel + 1) path v st) := by
      rintro path v st ⟨hinv, hnd, hlt, hdisj, hv, hfuel, hchain⟩
      obtain ⟨hvr, hrnd, hord⟩ := hinv
      rw [visit]
      by_cases hvis : v ∈ st.visited
      · rw [if_pos hvis]
        have hvres : v ∈ st.result := hvr ▸ hvis
        exact ⟨⟨hvr, hrnd, hord⟩, fun x hx => hx, hvres,
          fun x hx => Or.inl hx,
          fun x hx => reaches_closed g st.result hord v x hvres hx, hdisj⟩
      · rw [if_neg hvis]
        by_cases hp : v ∈ path
        · rw [if_pos hp]
          have hklt : path.indexOf v < path.length := List.indexOf_lt_length.mpr hp
          have hd : (path.drop (path.indexOf v)).head? = some v := by
            rw [List.head?_drop]
            rw [List.getElem?_eq_getElem hklt]
            exact congrArg _ (List.getElem_indexOf hklt)
          obtain ⟨rest, hrest⟩ : ∃ rest, path.drop (path.indexOf v) = v :: rest := by
            cases hdk : path.drop (path.indexOf v) with
            | nil => rw [hdk] at hd; cases hd
            | cons a r =>
              rw [hdk] at hd
              simp only [List.head?_cons, Option.some.injEq] at hd
              exact ⟨r, by rw [hd]⟩
          refine ⟨path.drop (path.indexOf v) ++ [v], rfl, ⟨?_, ?_, ?_⟩, ?_⟩
          · rw [hrest]
            simp
          · have hsplit : path ++ [v] = path.take (path.indexOf v)
                ++ (path.drop (path.indexOf v) ++ [v]) := by
              rw [← List.append_assoc, List.take_append_drop]
            rw [hsplit] at hchain
            exact (List.chain'_append.mp hchain).2.1
          · rw [hrest]
            rw [List.getLast?_concat]
            rfl
          · intro x hx
            rcases List.mem_append.mp hx with hx2 | hx2
            · exact Or.inl (List.mem_of_mem_drop hx2)
            · simp only [List.mem_singleton] at hx2
              subst hx2
              exact Or.inr (Reaches.refl x)
        · rw [if_neg hp]
          have hchain2 : ∀ u ∈ inputsOf g v,
              ((path ++ [v]) ++ [u]).Chain' (fun a b => b ∈ inputsOf g a) := by
            intro u hu
            rw [List.chain'_append]
            refine ⟨hchain, List.chain'_singleton u, ?_⟩
            intro x hx y hy
            rw [List.getLast?_concat] at hx
            simp only [Option.mem_def, Option.some.injEq] at hx
            simp only [List.head?_cons, Option.mem_def, Option.some.injEq] at hy
            rw [← hx, ← hy] at *
            exact hx ▸ hy ▸ hu
          have hpre2 : VisitListPre g fuel (path ++ [v]) (inputsOf g v) st := by
            refine ⟨⟨hvr, hrnd, hord⟩, ?_, ?_, ?_, ?_, ?_, ?_⟩
            · rw [List.nodup_append]
              refine ⟨hnd, by simp, ?_⟩
              intro x hx1 hx2
              simp only [List.mem_singleton] at hx2
              subst hx2
              exact hp hx1
            · intro x hx
              rcases List.mem_append.mp hx with h | h
              · exact hlt x h
              · simp only [List.mem_singleton] at h
                subst h
                exact hv
            · intro x hx
              rcases List.mem_append.mp hx with h | h
              · exact hdisj x h
              · simp only [List.mem_singleton] at h
                subst h
                exact hvr ▸ hvis
            · exact inputs_lt g hwf v
            · simp only [List.length_append, List.length_singleton]
              omega
            · exact hchain2
          have hpost := ihl (path ++ [v]) (inputsOf g v) st hpre2
          cases hres : visitList g fuel (path ++ [v]) (inputsOf g v) st with
          | error e =>
            rw [hres] at hpost
            obtain ⟨c, rfl, hcyc, hcm⟩ := hpost
            simp only []
            refine ⟨c, rfl, hcyc, ?_⟩
            intro x hx
            rcases hcm x hx with h | ⟨u, hu, hr⟩
            · rcases List.mem_append.mp h with h2 | h2
              · exact Or.inl h2
              · simp only [List.mem_singleton] at h2
                subst h2
                exact Or.inr (Reaches.refl x)
            · exact Or.inr (Reaches.step hu hr)
          | ok st1 =>
            rw [hres] at hpost
            obtain ⟨⟨hvr1, hrnd1, hord1⟩, hmono, hall, hnew, hreach, hdisj1⟩ := hpost
            have hvnot : v ∉ st1.result := hdisj1 v (by simp)
            simp only []
            refine ⟨⟨?_, ?_, ?_⟩, ?_, ?_, ?_, ?_, ?_⟩
            · simp only [hvr1]
            · rw [List.nodup_append]
              refine ⟨hrnd1, by simp, ?_⟩
              intro x hx1 hx2
              simp only [List.mem_singleton] at hx2
              subst hx2
              exact hvnot hx1
            · exact topoOrdered_concat g st1.result v hord1 hvnot hall
            · intro x hx
              exact List.mem_append.mpr (Or.inl (hmono x hx))
            · exact List.mem_append.mpr (Or.inr (by simp))
            · intro x hx
              rcases List.mem_append.mp hx with h | h
              · rcases hnew x h with h2 | ⟨u, hu, hr⟩
                · exact Or.inl h2
                · exact Or.inr (Reaches.step hu hr)
              · simp only [List.mem_singleton] at h
                subst h
                exact Or.inr (Reaches.refl x)
            · intro x hr
              cases hr with
              | refl => exact List.mem_append.mpr (Or.inr (by simp))
              | step hedge hr2 =>
                exact List.mem_append.mpr (Or.inl (hreach x _ hedge hr2))
            · intro x hx
              have h1 : x ∉ st1.result := hdisj1 x (List.mem_append.mpr (Or.inl hx))
              have h2 : x ≠ v := fun hc => hp (hc ▸ hx)
              intro hc
              rcases List.mem_append.mp hc with h | h
              · exact h1 h
              · simp only [List.mem_singleton] at h
                exact h2 h
    have hlist : ∀ path vs st, VisitListPre g (fuel + 1) path vs st →
        VisitListPost g path vs st (visitList g (fuel + 1) path vs st) := by
      intro path vs st
      induction vs generalizing st with
      | nil =>
        rintro ⟨hinv, hnd, hlt, hdisj, _, _, _⟩
        rw [visitList]
        exact ⟨hinv, fun x hx => hx, by simp, fun x hx => Or.inl hx,
          by simp, hdisj⟩
      | cons u us ihu =>
        rintro ⟨hinv, hnd, hlt, hdisj, hvlt, hfuel, hchain⟩
        rw [visitList]
        have hpre1 : VisitPre g (fuel + 1) path u st :=
          ⟨hinv, hnd, hlt, hdisj, hvlt u (by simp), hfuel, hchain u (by simp)⟩
        have hpost1 := hvisit path u st hpre1
        cases hres : visit g (fuel + 1) path u st with
        | error e =>
          rw [hres] at hpost1
          obtain ⟨c, rfl, hcyc, hcm⟩ := hpost1
          simp only []
          refine ⟨c, rfl, hcyc, ?_⟩
          intro x hx
          rcases hcm x hx with h | h
          · exact Or.inl h
          · exact Or.inr ⟨u, by simp, h⟩
        | ok st1 =>
          rw [hres] at hpost1
          obtain ⟨hinv1, hmono1, hu1, hnew1, hreach1, hdisj1⟩ := hpost1
          simp only []
          have hpre2 : VisitListPre g (fuel + 1) path us st1 :=
            ⟨hinv1, hnd, hlt, hdisj1, fun w hw => hvlt w (by simp [hw]), hfuel,
              fun w hw => hchain w (by simp [hw])⟩
          have hpost2 := ihu st1 hpre2
          cases hres2 : visitList g (fuel + 1) path us st1 with
          | error e =>
            rw [hres2] at hpost2
            obtain ⟨c, rfl, hcyc, hcm⟩ := hpost2
            refine ⟨c, rfl, hcyc, ?_⟩
            intro x hx
            rcases hcm x hx with h | ⟨w, hw, hr⟩
            · exact Or.inl h
            · exact Or.inr ⟨w, by simp [hw], hr⟩
          | ok st2 =>
            rw [hres2] at hpost2
            obtain ⟨hinv2, hmono2, hall2, hnew2, hreach2, hdisj2⟩ := hpost2
            refine ⟨hinv2, ?_, ?_, ?_, ?_, hdisj2⟩
            · intro x hx
              exact hmono2 x (hmono1 x hx)
            · intro w hw
              rcases List.mem_cons.mp hw with rfl | hw2
              · exact hmono2 w hu1
              · exact hall2 w hw2
            · intro x hx
              rcases hnew2 x hx with h | ⟨w, hw, hr⟩
              · rcases hnew1 x h with h2 | h2
                · exact Or.inl h2
                · exact Or.inr ⟨u, by simp, h2⟩
              · exact Or.inr ⟨w, by simp [hw], hr⟩
            · intro x w hw hr
              rcases List.mem_cons.mp hw with rfl | hw2
              · exact hmono2 x (hreach1 x hr)
              · exact hreach2 x w hw2 hr
    exact ⟨hvisit, hlist⟩


/-- C3: `topoSort` (arena embedding: nodes are indices, `g[v]` lists the
inputs of `v`).  On success the output lists each reachable node exactly
once with every input strictly before its consumer; on failure the error
carries a genuine reachable cycle; and it fails exactly on the inputs
whose reachable subgraph contains a cycle. -/
theorem c3_toposort (g : List (List Nat)) (roots : List Nat)
    (hwf : WfGraph g) (hroots : ∀ r ∈ roots, r < g.length) :
    (∀ l, topoSort g roots = .ok l →
        l.Nodup ∧ (∀ x, x ∈ l ↔ ∃ r ∈ roots, Reaches g r x)
        ∧ (∀ u ∈ l, ∀ v ∈ inputsOf g u, v ∈ l ∧ l.indexOf v < l.indexOf u))
  ∧ (∀ e, topoSort g roots = .error e →
        ∃ c, e = .cycle c ∧ IsCycle g c ∧ ∀ x ∈ c, ∃ r ∈ roots, Reaches g r x)
  ∧ ((∃ c, IsCycle g c ∧ ∀ x ∈ c, ∃ r ∈ roots, Reaches g r x)
      ↔ ∃ e, topoSort g roots = .error e) := by
  have hpre : VisitListPre g (g.length + 1) [] roots ⟨[], []⟩ := by
    refine ⟨⟨rfl, List.nodup_nil, ?_⟩, List.nodup_nil, by simp, by simp,
      hroots, by omega, ?_⟩
    · intro u hu
      cases hu
    · intro v _
      simp
  have hpost := (topo_spec g hwf (g.length + 1)).2 [] roots ⟨[], []⟩ hpre
  have hok : ∀ l, topoSort g roots = .ok l →
      l.Nodup ∧ (∀ x, x ∈ l ↔ ∃ r ∈ roots, Reaches g r x)
      ∧ (∀ u ∈ l, ∀ v ∈ inputsOf g u, v ∈ l ∧ l.indexOf v < l.indexOf u) := by
    intro l hokk
    rw [topoSort] at hokk
    cases hres : visitList g (g.length + 1) [] roots ⟨[], []⟩ with
    | error e =>
      rw [hres] at hokk
      cases hokk
    | ok st =>
      rw [hres] at hokk
      simp only [Except.ok.injEq] at hokk
      subst hokk
      rw [hres] at hpost
      obtain ⟨⟨_, hnd, hord⟩, _, _, hnew, hreach, _⟩ := hpost
      refine ⟨hnd, ?_, hord⟩
      intro x
      constructor
      · intro hx
        rcases hnew x hx with h | h
        · cases h
        · exact h
      · rintro ⟨r, hr, hreach2⟩
        exact hreach x r hr hreach2
  have herr : ∀ e, topoSort g roots = .error e →
      ∃ c, e = .cycle c ∧ IsCycle g c ∧ ∀ x ∈ c, ∃ r ∈ roots, Reaches g r x := by
    intro e hee
    rw [topoSort] at hee
    cases hres : visitList g (g.length + 1) [] roots ⟨[], []⟩ with
    | error e2 =>
      rw [hres] at hee
      simp only [Except.error.injEq] at hee
      subst hee
      rw [hres] at hpost
      obtain ⟨c, rfl, hcyc, hcm⟩ := hpost
      refine ⟨c, rfl, hcyc, ?_⟩
      intro x hx
      rcases hcm x hx with h | h
      · cases h
      · exact h
    | ok st =>
      rw [hres] at hee
      cases hee
  refine ⟨hok, herr, ?_, ?_⟩
  · rintro ⟨c, hcyc, hcm⟩
    cases htopo : topoSort g roots with
    | error e => exact ⟨e, rfl⟩
    | ok l =>
      exfalso
      obtain ⟨_, hiff, hord⟩ := hok l htopo
      exact no_cycle_of_topoOrdered g l hord c hcyc
        (fun x hx => (hiff x).mpr (hcm x hx))
  · rintro ⟨e, he⟩
    obtain ⟨c, _, hcyc, hcm⟩ := herr e he
    exact ⟨c, hcyc, hcm⟩

/-- Witness for C3: the cycle-iff-error clause at the concrete acyclic
two-node graph with an edge 0 → 1. -/
theorem c3_toposort_witness :
    ((∃ c, IsCycle [[1], []] c ∧ ∀ x ∈ c, ∃ r ∈ [0], Reaches [[1], []] r x)
      ↔ ∃ e, topoSort [[1], []] [0] = .error e) :=
  (c3_toposort [[1], []] [0] (by decide) (by decide)).2.2

end Tix
